import Mathlib

/-!
Verification of the pi-render-md markdown rendering extension.

Strings are modelled as `List Char`.  The JavaScript string operations used
by the source (String.prototype.trim, String.prototype.replaceAll with a
literal pattern, Number.parseInt, and the outer-fence regular expression)
are translated to executable Lean functions, and the stateful patching
logic (patch state, revision counter, per-instance flags) is modelled as
explicit state passing.
-/

namespace PiRenderMd

/-- Characters of the JavaScript whitespace class (the `\s` regex class and
the set removed by `String.prototype.trim`): ASCII whitespace, NBSP, Ogham
space mark, the Unicode space separators U+2000..U+200A, line and paragraph
separators, narrow NBSP, medium mathematical space, ideographic space and
the byte-order mark. -/
def isJsWs (c : Char) : Bool :=
  c == '\t' || c == '\n' || c == '\x0B' || c == '\x0C' || c == '\r' || c == ' ' ||
  c == '\u00A0' || c == '\u1680' ||
  (decide ('\u2000' ≤ c) && decide (c ≤ '\u200A')) ||
  c == '\u2028' || c == '\u2029' || c == '\u202F' || c == '\u205F' ||
  c == '\u3000' || c == '\uFEFF'

/-- The character list of a string literal. -/
def chars (s : String) : List Char := s.data

/-- JavaScript `String.prototype.trimStart`. -/
def jsTrimStart (l : List Char) : List Char := l.dropWhile isJsWs

/-- JavaScript `String.prototype.trimEnd`. -/
def jsTrimEnd (l : List Char) : List Char := (l.reverse.dropWhile isJsWs).reverse

/-- JavaScript `String.prototype.trim`. -/
def jsTrim (l : List Char) : List Char := jsTrimEnd (jsTrimStart l)

/-- The three-backtick fence marker. -/
def fence3 : List Char := chars "```"

/-- ASCII-only lower casing, the case folding performed by a
case-insensitive (non-unicode) JavaScript regex on ASCII pattern characters. -/
def asciiLower (c : Char) : Char :=
  if 'A' ≤ c ∧ c ≤ 'Z' then Char.ofNat (c.toNat + 32) else c

/-- Strip a literal pattern case-insensitively from the front of a list,
returning the remainder on success.  Implements matching one alternative of
`(markdown|md)` under the `i` flag. -/
def stripCI : List Char → List Char → Option (List Char)
  | [], l => some l
  | _ :: _, [] => none
  | p :: ps, c :: cs => if asciiLower c = asciiLower p then stripCI ps cs else none

/-- Strip one `\r?\n` (with the greedy `\r?` of the regex) from the front of
a list. -/
def nlStrip : List Char → Option (List Char)
  | '\r' :: '\n' :: t => some t
  | '\n' :: t => some t
  | _ => none

/-- Given the part of the input after the first line break of the fence
pattern, match the regex tail `([\s\S]*?)\r?\n``` ++ `\s*$` and return the lazy
(shortest) capture group.  The final backtick line must sit immediately
before the trailing whitespace run, so the capture is everything up to that
closing `\r?\n`, preferring to leave a `\r` to the closing line break. -/
def suffixBody (l : List Char) : Option (List Char) :=
  let core := jsTrimEnd l
  if core.drop (core.length - 5) = chars "\r\n```" ∧ 5 ≤ core.length then
    some (core.take (core.length - 5))
  else if core.drop (core.length - 4) = chars "\n```" ∧ 4 ≤ core.length then
    some (core.take (core.length - 4))
  else none

/-- Try to match `\r?\n([\s\S]*?)\r?\n``` ++ `\s*$` starting after `kk`
whitespace characters consumed by the greedy `\s*` that follows the
language tag. -/
def tryFenceAt (rest2 : List Char) (kk : Nat) : Option (List Char) :=
  match nlStrip (rest2.drop kk) with
  | some rem => suffixBody rem
  | none => none

/-- Backtracking search for the `\s*\r?\n` split after the language tag:
the greedy `\s*` tries the longest whitespace run first and gives characters
back one at a time. -/
def fenceTailSearch (rest2 : List Char) : Nat → Option (List Char)
  | 0 => tryFenceAt rest2 0
  | k + 1 =>
    match tryFenceAt rest2 (k + 1) with
    | some b => some b
    | none => fenceTailSearch rest2 k

/-- Matcher for the anchored regex
`^``` ++ `\s*(markdown|md)\s*\r?\n([\s\S]*?)\r?\n``` ++ `\s*$` (flag `i`)
from `stripOuterMarkdownFence`, returning the capture group on success.
The leading `\s*` is greedy and deterministic (the tag starts with a
non-whitespace character), the alternation tries `markdown` before `md`
(the two alternatives are mutually exclusive from their second character
on), and the `\s*` after the tag backtracks from the longest run. -/
def fenceMatch (t : List Char) : Option (List Char) :=
  if fence3.isPrefixOf t then
    let afterWs := (t.drop 3).dropWhile isJsWs
    let tagged :=
      match stripCI (chars "markdown") afterWs with
      | some r => some r
      | none => stripCI (chars "md") afterWs
    match tagged with
    | some rest2 => fenceTailSearch rest2 (rest2.takeWhile isJsWs).length
    | none => none
  else none

/-- Translation of `stripOuterMarkdownFence` (src/unnamed/part_000:132):
trim the text, match the whole-message fence regex against the trimmed
text, and return the capture group on success and the original text
otherwise. -/
def stripOuterMarkdownFence (text : List Char) : List Char :=
  match fenceMatch (jsTrim text) with
  | some body => body
  | none => text

/-- The ANSI full-reset sequence `ESC[0m`. -/
def fullReset : List Char := chars "\x1b[0m"

/-- The ANSI background-reset sequence `ESC[49m`. -/
def bgResetSeq : List Char := chars "\x1b[49m"

/-- Fuelled worker for `replaceAll`; the fuel is the length of the scanned
list, which bounds the recursion depth. -/
def replaceAllFuel (pat repl : List Char) : Nat → List Char → List Char
  | 0, s => s
  | _ + 1, [] => []
  | fuel + 1, c :: t =>
    if pat ≠ [] ∧ pat.isPrefixOf (c :: t) = true then
      repl ++ replaceAllFuel pat repl fuel (List.drop pat.length (c :: t))
    else
      c :: replaceAllFuel pat repl fuel t

/-- JavaScript `String.prototype.replaceAll` with a literal pattern:
left-to-right, non-overlapping, and the replacement text is not rescanned.
All call sites in the source use nonempty literal patterns. -/
def replaceAll (pat repl s : List Char) : List Char :=
  replaceAllFuel pat repl s.length s

/-- The `TuiPatchOptions` record of the source (src/unnamed/part_000:42). -/
structure TuiPatchOptions where
  enabled : Bool
  unwrapOuterMarkdownFence : Bool
  hideCodeFences : Bool
  showCodeFenceLanguageLabel : Bool
  stripHeadingPrefixes : Bool
  codeBlockBgKey : Option (List Char)
  codeBlockBgAnsi : Option (List Char)
  codeBlockIndent : List Char

/-- JavaScript truthiness of `options.codeBlockBgAnsi`: the background is
active exactly when the field is present and nonempty (the empty string is
falsy). -/
def bgAnsiVal (opts : TuiPatchOptions) : Option (List Char) :=
  match opts.codeBlockBgAnsi with
  | some bg => if bg = [] then none else some bg
  | none => none

/-- Translation of `applyCodeBg` (src/unnamed/part_000:204): no-op when the
background introducer is falsy, otherwise rewrite every full reset to
reapply the background after it, rewrite every background reset to the
background introducer, and prefix the whole line with the introducer. -/
def applyCodeBg (opts : TuiPatchOptions) (s : List Char) : List Char :=
  match bgAnsiVal opts with
  | none => s
  | some bg => bg ++ replaceAll bgResetSeq bg (replaceAll fullReset (fullReset ++ bg) s)

/-- Markdown tokens as consumed by the patched renderer: a tag, a heading
depth, raw text and inline children.  Only the fields the patched code
reads are modelled. -/
inductive Token where
  | mk (ty : List Char) (depth : Nat) (text : List Char) (children : List Token)

/-- The token tag (`token.type` in the source). -/
def Token.ty : Token → List Char
  | .mk ty _ _ _ => ty

/-- The heading depth (`token.depth`). -/
def Token.depth : Token → Nat
  | .mk _ d _ _ => d

/-- The raw token text (`token.text`). -/
def Token.text : Token → List Char
  | .mk _ _ tx _ => tx

/-- The inline child tokens (`token.tokens`). -/
def Token.children : Token → List Token
  | .mk _ _ _ cs => cs

/-- `"  ".repeat n`: the JavaScript `String.prototype.repeat`. -/
def repeatList (s : List Char) (n : Nat) : List Char := (List.replicate n s).flatten

/-- Translation of the patched `proto.renderToken` (src/unnamed/part_000:292).
The original renderer, the inline renderer and the three theme styling
functions are external collaborators passed as parameters. -/
def renderTokenPatched (opts : TuiPatchOptions)
    (origRenderToken : Token → Nat → Option (List Char) → List (List Char))
    (renderInlineTokens : List Token → List Char)
    (themeHeading themeBold themeUnderline : List Char → List Char)
    (token : Token) (width : Nat) (nextTokenType : Option (List Char)) :
    List (List Char) :=
  if opts.enabled = false ∨ opts.stripHeadingPrefixes = false ∨ token.ty ≠ chars "heading" then
    origRenderToken token width nextTokenType
  else
    let headingText := renderInlineTokens token.children
    let styledHeading :=
      if token.depth = 1 then themeHeading (themeBold (themeUnderline headingText))
      else if token.depth = 2 then themeHeading (themeBold headingText)
      else themeHeading (themeBold (repeatList (chars "  ") (token.depth - 3) ++ headingText))
    styledHeading :: (if nextTokenType ≠ some (chars "space") then [[]] else [])

/-- The token loop of the patched `proto.renderListItem`
(src/unnamed/part_000:333): nested lists recurse into the list renderer one
level deeper, text and paragraph tokens emit a single line, and every other
token kind is delegated to the full block renderer at the computed block
width, passing the next token's tag along. -/
def renderListItemBody
    (renderList : Token → Nat → List (List Char))
    (renderInlineTokens : List Token → List Char)
    (renderBlockToken : Token → Nat → Option (List Char) → List (List Char))
    (parentDepth blockWidth : Nat) : List Token → List (List Char)
  | [] => []
  | token :: rest =>
    (if token.ty = chars "list" then renderList token (parentDepth + 1)
     else if token.ty = chars "text" then
       [if token.children.isEmpty = false then renderInlineTokens token.children
        else token.text]
     else if token.ty = chars "paragraph" then [renderInlineTokens token.children]
     else renderBlockToken token blockWidth ((rest.head?).map Token.ty)) ++
    renderListItemBody renderList renderInlineTokens renderBlockToken parentDepth blockWidth rest

/-- Translation of the patched `proto.renderListItem`
(src/unnamed/part_000:321).  `contentWidth` is the stashed
`__piCommonmarkContentWidth` (absent before the first patched render, hence
the `?? 80` default). -/
def renderListItemPatched (opts : TuiPatchOptions)
    (origRenderListItem : List Token → Nat → List (List Char))
    (renderList : Token → Nat → List (List Char))
    (renderInlineTokens : List Token → List Char)
    (renderBlockToken : Token → Nat → Option (List Char) → List (List Char))
    (contentWidth : Option Nat)
    (tokens : List Token) (parentDepth : Nat) : List (List Char) :=
  if opts.enabled = false then origRenderListItem tokens parentDepth
  else
    let fullWidth := contentWidth.getD 80
    let blockWidth := max 20 (fullWidth - (2 * parentDepth + 2))
    renderListItemBody renderList renderInlineTokens renderBlockToken parentDepth blockWidth
      tokens

/-- `lines.join("\n")`. -/
def joinNl : List (List Char) → List Char
  | [] => []
  | [l] => l
  | l :: rest => l ++ '\n' :: joinNl rest

/-- JavaScript `String.prototype.split("\n")` (for stating properties about
the lines of the joined output). -/
def splitNl : List Char → List (List Char)
  | [] => [[]]
  | c :: t =>
    if c = '\n' then [] :: splitNl t
    else
      match splitNl t with
      | h :: r => (c :: h) :: r
      | [] => [[c]]

/-- The trailing pop loop of `renderMarkdownToTerminal`
(src/unnamed/part_000:522): remove trailing empty lines. -/
def dropTrailingBlankLines (ls : List (List Char)) : List (List Char) :=
  (ls.reverse.dropWhile List.isEmpty).reverse

/-- Translation of `renderMarkdownToTerminal` (src/unnamed/part_000:514).
The transient Markdown instance built over the given markdown and theme is
an external collaborator; its `render` method is abstracted as the `render`
parameter (width to produced lines).  Every produced line is trimmed of
trailing whitespace, trailing blank lines are dropped and the rest is
joined with line breaks. -/
def renderMarkdownToTerminal (render : Nat → List (List Char)) (width : Nat) : List Char :=
  joinNl (dropTrailingBlankLines ((render width).map jsTrimEnd))

/-- The process-wide `PatchState` of the source (src/unnamed/part_000:58),
restricted to the fields the claims are about (the captured original
methods are external function values). -/
structure PatchState where
  revision : Nat
  options : TuiPatchOptions

/-- The built-in option defaults of `getPatchState` (src/unnamed/part_000:76). -/
def defaultOptions : TuiPatchOptions where
  enabled := true
  unwrapOuterMarkdownFence := true
  hideCodeFences := true
  showCodeFenceLanguageLabel := false
  stripHeadingPrefixes := true
  codeBlockBgKey := some (chars "toolPendingBg")
  codeBlockBgAnsi := none
  codeBlockIndent := chars "    "

/-- The freshly created patch state of `getPatchState`: revision 0 and
default options. -/
def initialPatchState : PatchState := { revision := 0, options := defaultOptions }

/-- The `commit` closure of `renderMdCommandHandler`
(src/unnamed/part_000:636): bump the revision by one.  Persisting the
settings snapshot and requesting a redraw are fire-and-forget external side
effects. -/
def commitState (s : PatchState) : PatchState := { s with revision := s.revision + 1 }

/-- The revision bump performed by `applyTuiMarkdownPatchOnce`
(src/unnamed/part_000:265). -/
def applyPatchOnceState (s : PatchState) : PatchState := { s with revision := s.revision + 1 }

/-- The mutations the source performs on the process-wide patch state:
a committed configuration change, re-application of the prototype patch,
and plain option-field assignment (session start, live edits before their
commit).  Renders read the state but do not change it. -/
inductive PatchStep : PatchState → PatchState → Prop where
  | commit (s : PatchState) : PatchStep s (commitState s)
  | applyPatchOnce (s : PatchState) : PatchStep s (applyPatchOnceState s)
  | setOptions (s : PatchState) (opts : TuiPatchOptions) : PatchStep s { s with options := opts }

/-- The per-instance state the patch stores on a Markdown instance:
`__piCommonmarkRevisionApplied`, `__piCommonmarkUnwrapped`,
`__piCommonmarkThemePatched`, the instance text, and the theme's
`codeBlockIndent` slot the patch writes. -/
structure MarkdownInstance where
  revisionApplied : Option Nat
  unwrapped : Bool
  themePatched : Bool
  text : List Char
  themeIndent : Option (List Char)

/-- Translation of `patchMarkdownInstance` (src/unnamed/part_000:140),
returning the updated instance together with two flags: whether the fence
unwrap ran and whether the theme wrapper installation ran.  The
`codeBlockIndent` assignment runs on every call; the wrapper installation
is guarded by `themePatched`.  (The `theme` object is modelled as always
present, and `options.codeBlockIndent` is a non-nullable string, so its
`??` fallbacks never fire.) -/
def patchMarkdownInstance (state : PatchState) (inst : MarkdownInstance) :
    MarkdownInstance × Bool × Bool :=
  if state.options.enabled = false then (inst, false, false)
  else
    let inst1 :=
      if inst.revisionApplied ≠ some state.revision then
        { inst with revisionApplied := some state.revision, unwrapped := false,
                    themePatched := false }
      else inst
    let step2 :=
      if state.options.unwrapOuterMarkdownFence = true ∧ inst1.unwrapped = false then
        ({ inst1 with unwrapped := true, text := stripOuterMarkdownFence inst1.text }, true)
      else (inst1, false)
    let inst2 := step2.1
    let baseIndent := state.options.codeBlockIndent
    let newIndent :=
      match bgAnsiVal state.options with
      | some bg => if baseIndent = [] then baseIndent else bg ++ baseIndent
      | none => baseIndent
    let inst3 := { inst2 with themeIndent := some newIndent }
    if inst3.themePatched = true then (inst3, step2.2, false)
    else ({ inst3 with themePatched := true }, step2.2, true)

/-- Translation of the patched `proto.setText` (src/unnamed/part_000:281):
store the (optionally unwrapped) text and clear the per-instance unwrapped
flag so the next render re-evaluates the unwrap. -/
def setTextPatched (state : PatchState) (inst : MarkdownInstance) (text : List Char) :
    MarkdownInstance :=
  let nextText :=
    if state.options.enabled = true ∧ state.options.unwrapOuterMarkdownFence = true then
      stripOuterMarkdownFence text
    else text
  { inst with unwrapped := false, text := nextText }

/-- Value of a digit string in base 10. -/
def digitsToNat (ds : List Char) : Nat := ds.foldl (fun a c => 10 * a + (c.toNat - 48)) 0

/-- JavaScript `Number.parseInt(s, 10)`: skip leading whitespace, read an
optional sign, then the longest leading digit run; NaN (here `none`) when
there is no digit. -/
def jsParseInt10 (s : List Char) : Option Int :=
  let s1 := s.dropWhile isJsWs
  let signAndRest : Int × List Char :=
    match s1 with
    | '-' :: t => (-1, t)
    | '+' :: t => (1, t)
    | _ => (1, s1)
  let ds := signAndRest.2.takeWhile Char.isDigit
  if ds = [] then none else some (signAndRest.1 * (digitsToNat ds : Int))

/-- The string branch of `toInt` (src/unnamed/part_000:380): parse in base
10, `undefined` when the parse yields NaN. -/
def toIntStr (value : List Char) : Option Int := jsParseInt10 value

/-- `Math.max(0, Math.min(8, Math.trunc(n)))` for an integer `n`. -/
def clampIndent (n : Int) : Nat := (max 0 (min 8 n)).toNat

/-- The `indent` case of `renderMdCommandHandler` (src/unnamed/part_000:836):
non-numeric input warns and leaves the indent unchanged; numeric input is
clamped to `[0,8]` and becomes the new indent string (`" ".repeat(spaces)`). -/
def handleIndentCommand (value : List Char) (prevIndent : List Char) : List Char :=
  match toIntStr value with
  | none => prevIndent
  | some n => List.replicate (clampIndent n) ' '

/-- Translation of `parseIndentSpaces` (src/unnamed/part_000:420). -/
def parseIndentSpaces (value : List Char) (defaultSpaces : Nat) : List Char :=
  match toIntStr value with
  | none => List.replicate defaultSpaces ' '
  | some n => List.replicate (clampIndent n) ' '

/-- The ternary `options.codeBlockBgAnsi ? options.codeBlockBgAnsi : ""`
used for collapsed fence lines. -/
def bgOrEmptyVal (opts : TuiPatchOptions) : List Char :=
  match bgAnsiVal opts with
  | some bg => bg
  | none => []

/-- Translation of the wrapped `theme.codeBlockBorder`
(src/unnamed/part_000:224).  `origBorder` is the captured original border
styling function and `themeIndent` the current `theme.codeBlockIndent`
slot (with the source's `?? "  "` fallback). -/
def wrappedCodeBlockBorder (opts : TuiPatchOptions)
    (origBorder : List Char → List Char) (themeIndent : Option (List Char))
    (t : List Char) : List Char :=
  if opts.enabled = false ∨ opts.hideCodeFences = false then applyCodeBg opts (origBorder t)
  else if fence3.isPrefixOf t = false then applyCodeBg opts (origBorder t)
  else
    let lang := jsTrim (t.drop 3)
    if lang = [] then bgOrEmptyVal opts
    else if opts.showCodeFenceLanguageLabel = false then bgOrEmptyVal opts
    else
      let indent := themeIndent.getD (chars "  ")
      let label := origBorder (chars "‹" ++ lang ++ chars "›")
      applyCodeBg opts (indent ++ label)

/-- Scanner for the reset-safety property: at every position of the list,
if the full-reset sequence starts there, the background introducer follows
it immediately. -/
def goodResets (bg : List Char) : List Char → Bool
  | [] => true
  | c :: t =>
    (!(fullReset.isPrefixOf (c :: t)) || bg.isPrefixOf (List.drop 4 (c :: t))) &&
    goodResets bg t

/-- Scanner for absence of a (nonempty) pattern: no position of the list
starts an occurrence of `pat`. -/
def noOccur (pat : List Char) : List Char → Bool
  | [] => true
  | c :: t => !(pat.isPrefixOf (c :: t)) && noOccur pat t

/-- Characters allowed in the parameter part of an SGR sequence. -/
def isSgrParamChar (c : Char) : Bool := c.isDigit || c == ';'

/-- Well-formedness of a raw ANSI SGR background introducer
`ESC [ params m`: a nonempty parameter string of digits and semicolons
that is neither the full-reset parameter `0` nor the background-reset
parameter `49` (e.g. `ESC[48;5;236m`). -/
def IsBgIntroducer (bg : List Char) : Prop :=
  ∃ ds : List Char, ds ≠ [] ∧ (∀ c ∈ ds, isSgrParamChar c = true) ∧
    ds ≠ chars "0" ∧ ds ≠ chars "49" ∧ bg = '\x1b' :: '[' :: (ds ++ ['m'])

/-- An options record with the patch defaults and a given background
introducer, used to instantiate the background claims. -/
def mkBgOptions (bg : List Char) : TuiPatchOptions :=
  { enabled := true, unwrapOuterMarkdownFence := true, hideCodeFences := true,
    showCodeFenceLanguageLabel := false, stripHeadingPrefixes := true,
    codeBlockBgKey := none, codeBlockBgAnsi := some bg,
    codeBlockIndent := chars "    " }

/-- Every character of the list is JavaScript whitespace. -/
def AllWs (l : List Char) : Prop := ∀ c ∈ l, isJsWs c = true

/-- A single line break as matched by `\r?\n`. -/
def NlTok (nl : List Char) : Prop := nl = ['\n'] ∨ nl = ['\r', '\n']

/-- Case-insensitive equality with `markdown` or `md` (ASCII case folding). -/
def CiTag (tag : List Char) : Prop :=
  tag.map asciiLower = chars "markdown" ∨ tag.map asciiLower = chars "md"

/-- Declarative reading of the outer-fence pattern as the specification
states it: the entire text is a line of exactly three backticks, optional
whitespace, the tag `markdown` or `md` (case-insensitive), optional
whitespace, a line break, an arbitrary (possibly empty) body, a line
break, and a line of exactly three backticks with optional trailing
whitespace.  `body` is the inner capture-group content. -/
def FenceSplit (t body : List Char) : Prop :=
  ∃ w1 tag w2 nl1 nl2 w3,
    AllWs w1 ∧ CiTag tag ∧ AllWs w2 ∧ NlTok nl1 ∧ NlTok nl2 ∧ AllWs w3 ∧
    t = fence3 ++ w1 ++ tag ++ w2 ++ nl1 ++ body ++ nl2 ++ fence3 ++ w3

end PiRenderMd

namespace PiRenderMd

example : stripOuterMarkdownFence (chars "```markdown\nhi\n```") = chars "hi" := by decide

example : stripOuterMarkdownFence (chars "no fence") = chars "no fence" := by decide

example : stripOuterMarkdownFence (chars "  ```MD\r\nbody lines\r\n```  ") =
    chars "body lines" := by decide

example : stripOuterMarkdownFence (chars "```md\n```") = chars "```md\n```" := by decide

example : stripOuterMarkdownFence (chars "```markdown\n\n```") = chars "" := by decide

theorem repeatList_two_space (n : Nat) :
    repeatList (chars "  ") n = List.replicate (2 * n) ' ' := by
  induction n with
  | zero => rfl
  | succ k ih =>
    have h2 : 2 * (k + 1) = 2 * k + 1 + 1 := by omega
    simp only [repeatList, List.replicate_succ, List.flatten_cons] at ih ⊢
    rw [ih, h2, List.replicate_succ, List.replicate_succ]
    rfl

/-- Claim C3: with the patch enabled, the wrapped `codeBlockBorder` maps a
closing fence line (starts with the three-backtick marker, no trailing
language text) to the raw background introducer alone when a background is
set and to the empty string otherwise; an opening fence line collapses the
same way when no language label is requested, and otherwise renders the
active indent string followed by `‹lang›` styled through the original
border function, with the background applied; every line not starting with
the marker — or any line when fence-hiding is disabled — maps to
`applyCodeBg` of the original border styling. -/
theorem C3_code_block_border (opts : TuiPatchOptions)
    (origBorder : List Char → List Char) (themeIndent : Option (List Char))
    (t : List Char) (hen : opts.enabled = true) :
    (opts.hideCodeFences = false →
      wrappedCodeBlockBorder opts origBorder themeIndent t = applyCodeBg opts (origBorder t)) ∧
    (opts.hideCodeFences = true → fence3.isPrefixOf t = false →
      wrappedCodeBlockBorder opts origBorder themeIndent t = applyCodeBg opts (origBorder t)) ∧
    (opts.hideCodeFences = true → fence3.isPrefixOf t = true → jsTrim (t.drop 3) = [] →
      wrappedCodeBlockBorder opts origBorder themeIndent t = bgOrEmptyVal opts) ∧
    (opts.hideCodeFences = true → fence3.isPrefixOf t = true → jsTrim (t.drop 3) ≠ [] →
      opts.showCodeFenceLanguageLabel = false →
      wrappedCodeBlockBorder opts origBorder themeIndent t = bgOrEmptyVal opts) ∧
    (opts.hideCodeFences = true → fence3.isPrefixOf t = true → jsTrim (t.drop 3) ≠ [] →
      opts.showCodeFenceLanguageLabel = true →
      wrappedCodeBlockBorder opts origBorder themeIndent t =
        applyCodeBg opts (themeIndent.getD (chars "  ") ++
          origBorder (chars "‹" ++ jsTrim (t.drop 3) ++ chars "›"))) ∧
    ((opts.codeBlockBgAnsi = none ∨ opts.codeBlockBgAnsi = some []) →
      bgOrEmptyVal opts = []) ∧
    (∀ bg, opts.codeBlockBgAnsi = some bg → bg ≠ [] → bgOrEmptyVal opts = bg) := by
  refine ⟨?_, ?_, ?_, ?_, ?_, ?_, ?_⟩
  · intro hhide
    simp [wrappedCodeBlockBorder, hhide]
  · intro hhide hpre
    simp [wrappedCodeBlockBorder, hhide, hen, hpre]
  · intro hhide hpre hlang
    simp [wrappedCodeBlockBorder, hhide, hen, hpre, hlang]
  · intro hhide hpre hlang hlabel
    simp [wrappedCodeBlockBorder, hhide, hen, hpre, hlang, hlabel]
  · intro hhide hpre hlang hlabel
    simp [wrappedCodeBlockBorder, hhide, hen, hpre, hlang, hlabel]
  · intro h
    rcases h with h | h <;> simp [bgOrEmptyVal, bgAnsiVal, h]
  · intro bg hbg hne
    simp [bgOrEmptyVal, bgAnsiVal, hbg, hne]

theorem C3_witness :
    wrappedCodeBlockBorder
      { enabled := true, unwrapOuterMarkdownFence := true, hideCodeFences := true,
        showCodeFenceLanguageLabel := false, stripHeadingPrefixes := true,
        codeBlockBgKey := none, codeBlockBgAnsi := some (chars "\x1b[44m"),
        codeBlockIndent := chars "    " }
      (fun s => s) none (chars "```") = chars "\x1b[44m" := by
  have h := (C3_code_block_border
    { enabled := true, unwrapOuterMarkdownFence := true, hideCodeFences := true,
      showCodeFenceLanguageLabel := false, stripHeadingPrefixes := true,
      codeBlockBgKey := none, codeBlockBgAnsi := some (chars "\x1b[44m"),
      codeBlockIndent := chars "    " }
    (fun s => s) none (chars "```") rfl).2.2.1 rfl (by decide) (by decide)
  rw [h]
  decide

/-- Claim C4: with heading-stripping enabled, a heading token of depth `d`
renders to exactly one styled line — depth 1 bold plus underline, depth 2
bold only, depth at least 3 bold with `2*(d-3)` spaces of indentation —
followed by one blank line exactly when the next token is not the
whitespace-only `space` token; the styled line contains no literal `#`
provided the theme styling functions introduce none and the heading text
contains none. -/
theorem C4_heading_rendering (opts : TuiPatchOptions)
    (orig : Token → Nat → Option (List Char) → List (List Char))
    (inline : List Token → List Char) (th tb tu : List Char → List Char)
    (token : Token) (width : Nat) (next : Option (List Char))
    (hen : opts.enabled = true) (hstrip : opts.stripHeadingPrefixes = true)
    (hty : token.ty = chars "heading") :
    ∃ styled,
      renderTokenPatched opts orig inline th tb tu token width next =
        styled :: (if next ≠ some (chars "space") then [[]] else []) ∧
      (token.depth = 1 → styled = th (tb (tu (inline token.children)))) ∧
      (token.depth = 2 → styled = th (tb (inline token.children))) ∧
      (3 ≤ token.depth →
        styled = th (tb (List.replicate (2 * (token.depth - 3)) ' ' ++
          inline token.children))) ∧
      ((∀ s, '#' ∉ s → '#' ∉ th s) → (∀ s, '#' ∉ s → '#' ∉ tb s) →
       (∀ s, '#' ∉ s → '#' ∉ tu s) → '#' ∉ inline token.children → '#' ∉ styled) := by
  refine ⟨if token.depth = 1 then th (tb (tu (inline token.children)))
    else if token.depth = 2 then th (tb (inline token.children))
    else th (tb (repeatList (chars "  ") (token.depth - 3) ++ inline token.children)),
    ?_, ?_, ?_, ?_, ?_⟩
  · simp [renderTokenPatched, hen, hstrip, hty]
  · intro h1
    simp [h1]
  · intro h2
    simp [h2]
  · intro h3
    have h1 : token.depth ≠ 1 := by omega
    have h2 : token.depth ≠ 2 := by omega
    simp [h1, h2, repeatList_two_space]
  · intro hth htb htu hin
    split
    · exact hth _ (htb _ (htu _ hin))
    · split
      · exact hth _ (htb _ hin)
      · refine hth _ (htb _ ?_)
        rw [repeatList_two_space]
        intro hmem
        rcases List.mem_append.mp hmem with hmem | hmem
        · exact absurd (List.eq_of_mem_replicate hmem) (by decide)
        · exact hin hmem

theorem C4_witness :
    renderTokenPatched defaultOptions (fun _ _ _ => []) (fun _ => chars "Title")
      (fun s => s) (fun s => s) (fun s => s)
      (Token.mk (chars "heading") 1 [] []) 40 none = [chars "Title", []] := by
  obtain ⟨styled, heq, h1, -, -, -⟩ := C4_heading_rendering defaultOptions
    (fun _ _ _ => []) (fun _ => chars "Title") (fun s => s) (fun s => s) (fun s => s)
    (Token.mk (chars "heading") 1 [] []) 40 none rfl rfl rfl
  rw [heq, h1 rfl]
  decide

/-- Claim C5: with the patch enabled, `renderListItem` computes the block
width as `max(20, fullContentWidth - (2*parentDepth + 2))` and iterates the
child tokens in order: a nested list recurses into the list renderer at
`parentDepth + 1`, a text token emits one line (its literal text when it
has no inline children, otherwise its rendered inline children), a
paragraph token emits one line of rendered inline children, and every other
token kind is delegated to the general block renderer at the computed block
width with the next token's tag. -/
theorem C5_list_item_rendering (opts : TuiPatchOptions)
    (orig : List Token → Nat → List (List Char))
    (renderList : Token → Nat → List (List Char))
    (inline : List Token → List Char)
    (renderBlock : Token → Nat → Option (List Char) → List (List Char))
    (cw : Option Nat) (parentDepth : Nat) (hen : opts.enabled = true) :
    ∃ blockWidth, blockWidth = max 20 (cw.getD 80 - (2 * parentDepth + 2)) ∧
    (∀ tokens,
      renderListItemPatched opts orig renderList inline renderBlock cw tokens parentDepth =
        renderListItemBody renderList inline renderBlock parentDepth blockWidth tokens) ∧
    renderListItemBody renderList inline renderBlock parentDepth blockWidth [] = [] ∧
    (∀ token rest, token.ty = chars "list" →
      renderListItemBody renderList inline renderBlock parentDepth blockWidth (token :: rest) =
        renderList token (parentDepth + 1) ++
        renderListItemBody renderList inline renderBlock parentDepth blockWidth rest) ∧
    (∀ token rest, token.ty = chars "text" → token.children = [] →
      renderListItemBody renderList inline renderBlock parentDepth blockWidth (token :: rest) =
        [token.text] ++
        renderListItemBody renderList inline renderBlock parentDepth blockWidth rest) ∧
    (∀ token rest, token.ty = chars "text" → token.children ≠ [] →
      renderListItemBody renderList inline renderBlock parentDepth blockWidth (token :: rest) =
        [inline token.children] ++
        renderListItemBody renderList inline renderBlock parentDepth blockWidth rest) ∧
    (∀ token rest, token.ty = chars "paragraph" →
      renderListItemBody renderList inline renderBlock parentDepth blockWidth (token :: rest) =
        [inline token.children] ++
        renderListItemBody renderList inline renderBlock parentDepth blockWidth rest) ∧
    (∀ token rest, token.ty ≠ chars "list" → token.ty ≠ chars "text" →
      token.ty ≠ chars "paragraph" →
      renderListItemBody renderList inline renderBlock parentDepth blockWidth (token :: rest) =
        renderBlock token blockWidth ((rest.head?).map Token.ty) ++
        renderListItemBody renderList inline renderBlock parentDepth blockWidth rest) := by
  refine ⟨max 20 (cw.getD 80 - (2 * parentDepth + 2)), rfl, ?_, rfl, ?_, ?_, ?_, ?_, ?_⟩
  · intro tokens
    simp [renderListItemPatched, hen]
  · intro token rest hl
    simp [renderListItemBody, hl]
  · intro token rest ht hc
    simp [renderListItemBody, ht, hc, chars]
  · intro token rest ht hc
    simp [renderListItemBody, ht, hc, chars]
  · intro token rest hp
    have hl : token.ty ≠ chars "list" := by
      rw [hp]; decide
    have ht : token.ty ≠ chars "text" := by
      rw [hp]; decide
    simp only [renderListItemBody, hl, ht, hp,
      if_neg (show ¬(chars "paragraph" = chars "list") by decide),
      if_neg (show ¬(chars "paragraph" = chars "text") by decide), if_pos rfl]
    simp
  · intro token rest hl ht hp
    simp [renderListItemBody, hl, ht, hp]

theorem C5_witness :
    renderListItemPatched defaultOptions (fun _ _ => []) (fun _ _ => [])
      (fun _ => []) (fun _ w _ => [List.replicate w 'x']) (some 60)
      [Token.mk (chars "table") 0 [] []] 1 = [List.replicate 56 'x'] := by
  obtain ⟨bw, hbw, hmain, hnil, -, -, -, -, hother⟩ := C5_list_item_rendering defaultOptions
    (fun _ _ => []) (fun _ _ => []) (fun _ => []) (fun _ w _ => [List.replicate w 'x'])
    (some 60) 1 rfl
  rw [hmain, hother (Token.mk (chars "table") 0 [] []) [] (by decide) (by decide) (by decide),
    hnil, hbw]
  decide

/-- Claim C8 counterexample: the claim says out-of-range numeric indent
input falls back to the previous value, but the live-edit handler clamps
it instead: input `99` with previous indent of two spaces yields eight
spaces, not the previous value. -/
theorem C8_counterexample :
    handleIndentCommand (chars "99") (chars "  ") = List.replicate 8 ' ' ∧
    handleIndentCommand (chars "99") (chars "  ") ≠ chars "  " := by
  constructor
  · decide
  · decide

/-- Claim C8 (amended): numeric indent input is clamped to `[0,8]`
(out-of-range values go to the nearest bound, not to the previous value);
non-numeric input falls back to the previous value (live edit) or the
caller default (session start); in particular `abc` leaves the previous
indent unchanged and raises no error. -/
theorem C8_indent_amended (value prev : List Char) (defaultSpaces : Nat) :
    (toIntStr value = none → handleIndentCommand value prev = prev) ∧
    (∀ n, toIntStr value = some n →
      handleIndentCommand value prev = List.replicate (clampIndent n) ' ' ∧
      clampIndent n ≤ 8) ∧
    (toIntStr value = none →
      parseIndentSpaces value defaultSpaces = List.replicate defaultSpaces ' ') ∧
    handleIndentCommand (chars "abc") prev = prev := by
  refine ⟨?_, ?_, ?_, ?_⟩
  · intro h
    simp [handleIndentCommand, h]
  · intro n h
    refine ⟨by simp [handleIndentCommand, h], ?_⟩
    have : min 8 n ≤ 8 := min_le_left _ _
    simp only [clampIndent]
    omega
  · intro h
    simp [parseIndentSpaces, h]
  · have habc : toIntStr (chars "abc") = none := by decide
    simp [handleIndentCommand, habc]

theorem C8_witness :
    handleIndentCommand (chars "5") (chars "") = List.replicate 5 ' ' ∧
    handleIndentCommand (chars "abc") (chars "  ") = chars "  " := by
  constructor
  · have h := ((C8_indent_amended (chars "5") (chars "") 4).2.1 5 (by decide)).1
    rw [h]
    decide
  · exact (C8_indent_amended (chars "abc") (chars "  ") 4).2.2.2

theorem dropWhile_dropWhile (p : Char → Bool) (l : List Char) :
    (l.dropWhile p).dropWhile p = l.dropWhile p := by
  induction l with
  | nil => rfl
  | cons c t ih =>
    by_cases h : p c
    · simp [List.dropWhile_cons, h, ih]
    · simp [List.dropWhile_cons, h]

theorem jsTrimEnd_idem (l : List Char) : jsTrimEnd (jsTrimEnd l) = jsTrimEnd l := by
  simp [jsTrimEnd, List.reverse_reverse, dropWhile_dropWhile]

theorem mem_of_mem_jsTrimEnd {c : Char} {l : List Char} (h : c ∈ jsTrimEnd l) : c ∈ l := by
  simp only [jsTrimEnd, List.mem_reverse] at h
  exact List.mem_reverse.mp ((List.dropWhile_sublist _).mem h)

theorem splitNl_ne_nil (l : List Char) : splitNl l ≠ [] := by
  induction l with
  | nil => simp [splitNl]
  | cons c t ih =>
    by_cases h : c = '\n'
    · simp [splitNl, h]
    · simp only [splitNl, if_neg h]
      cases hs : splitNl t with
      | nil => exact absurd hs ih
      | cons a r => simp

theorem splitNl_no_nl (l : List Char) (h : '\n' ∉ l) : splitNl l = [l] := by
  induction l with
  | nil => rfl
  | cons c t ih =>
    have hc : ¬(c = '\n') := by
      intro e
      exact h (by simp [e])
    have ht : '\n' ∉ t := fun m => h (List.mem_cons_of_mem _ m)
    simp [splitNl, hc, ih ht]

theorem splitNl_append_nl (l X : List Char) (h : '\n' ∉ l) :
    splitNl (l ++ '\n' :: X) = l :: splitNl X := by
  induction l with
  | nil => simp [splitNl]
  | cons c t ih =>
    have hc : ¬(c = '\n') := by
      intro e
      exact h (by simp [e])
    have ht : '\n' ∉ t := fun m => h (List.mem_cons_of_mem _ m)
    simp [splitNl, hc, ih ht]

theorem joinNl_cons_cons (a b : List Char) (r : List (List Char)) :
    joinNl (a :: b :: r) = a ++ '\n' :: joinNl (b :: r) := rfl

theorem splitNl_joinNl (L : List (List Char)) (hL : L ≠ []) (h : ∀ l ∈ L, '\n' ∉ l) :
    splitNl (joinNl L) = L := by
  induction L with
  | nil => exact absurd rfl hL
  | cons l rest ih =>
    cases rest with
    | nil => simpa [joinNl] using splitNl_no_nl l (h l (by simp))
    | cons l2 r2 =>
      rw [joinNl_cons_cons, splitNl_append_nl l _ (h l (by simp)),
        ih (by simp) (fun x hx => h x (by simp [hx]))]

theorem mem_dropTrailingBlankLines {x : List Char} {L : List (List Char)}
    (h : x ∈ dropTrailingBlankLines L) : x ∈ L := by
  simp only [dropTrailingBlankLines, List.mem_reverse] at h
  exact List.mem_reverse.mp ((List.dropWhile_sublist _).mem h)

theorem head?_dropWhile_not {α : Type} (p : α → Bool) (l : List α) (x : α)
    (h : (l.dropWhile p).head? = some x) : p x = false := by
  induction l with
  | nil => simp [List.dropWhile] at h
  | cons c t ih =>
    by_cases hc : p c
    · rw [List.dropWhile_cons, if_pos (by simpa using hc)] at h
      exact ih h
    · rw [List.dropWhile_cons, if_neg (by simpa using hc)] at h
      simp only [List.head?_cons, Option.some.injEq] at h
      rw [← h]
      simpa using hc

theorem getLast?_dropTrailingBlankLines (L : List (List Char))
    (_h : dropTrailingBlankLines L ≠ []) :
    (dropTrailingBlankLines L).getLast? ≠ some [] := by
  intro hlast
  have h1 : (L.reverse.dropWhile List.isEmpty).head? = some [] := by
    rw [← List.getLast?_reverse]
    simpa [dropTrailingBlankLines] using hlast
  have := head?_dropWhile_not List.isEmpty L.reverse [] h1
  simp at this

/-- Claim C6: the print-mode renderer trims trailing whitespace from every
produced line, drops trailing blank lines, and joins the rest with line
breaks, so (provided the external renderer returns newline-free lines) no
line of the output has trailing whitespace and, for a nonempty output, the
final line is not blank. -/
theorem C6_print_mode_output (render : Nat → List (List Char)) (width : Nat)
    (hnl : ∀ l ∈ render width, '\n' ∉ l) :
    (∀ line ∈ splitNl (renderMarkdownToTerminal render width), jsTrimEnd line = line) ∧
    (renderMarkdownToTerminal render width ≠ [] →
      (splitNl (renderMarkdownToTerminal render width)).getLast? ≠ some []) ∧
    renderMarkdownToTerminal render width =
      joinNl (dropTrailingBlankLines ((render width).map jsTrimEnd)) := by
  have hmem : ∀ x ∈ dropTrailingBlankLines ((render width).map jsTrimEnd),
      ∃ l ∈ render width, x = jsTrimEnd l := by
    intro x hx
    have := mem_dropTrailingBlankLines hx
    obtain ⟨l, hl, hxl⟩ := List.mem_map.mp this
    exact ⟨l, hl, hxl.symm⟩
  by_cases hE : dropTrailingBlankLines ((render width).map jsTrimEnd) = []
  · refine ⟨?_, ?_, rfl⟩
    · intro line hline
      simp only [renderMarkdownToTerminal, hE] at hline
      simp only [joinNl, splitNl, List.mem_singleton] at hline
      rw [hline]
      rfl
    · intro hne
      exact absurd (by simp [renderMarkdownToTerminal, hE, joinNl]) hne
  · have hnlL : ∀ l ∈ dropTrailingBlankLines ((render width).map jsTrimEnd), '\n' ∉ l := by
      intro l hl
      obtain ⟨l0, hl0, rfl⟩ := hmem l hl
      intro hmemnl
      exact hnl l0 hl0 (mem_of_mem_jsTrimEnd hmemnl)
    have hsplit : splitNl (renderMarkdownToTerminal render width) =
        dropTrailingBlankLines ((render width).map jsTrimEnd) := by
      simp only [renderMarkdownToTerminal]
      exact splitNl_joinNl _ hE hnlL
    refine ⟨?_, ?_, rfl⟩
    · intro line hline
      rw [hsplit] at hline
      obtain ⟨l0, _, rfl⟩ := hmem line hline
      exact jsTrimEnd_idem l0
    · intro _
      rw [hsplit]
      exact getLast?_dropTrailingBlankLines _ hE

theorem C6_witness :
    (∀ line ∈ splitNl (renderMarkdownToTerminal
        (fun _ => [chars "Para", [], chars "code  ", [], []]) 40),
      jsTrimEnd line = line) ∧
    renderMarkdownToTerminal (fun _ => [chars "Para", [], chars "code  ", [], []]) 40 =
      chars "Para\n\ncode" := by
  have h := C6_print_mode_output (fun _ => [chars "Para", [], chars "code  ", [], []]) 40
    (by decide)
  exact ⟨h.1, by decide⟩

/-- Claim C7: the process-wide revision starts at 0 and never decreases
across the state mutations the source performs; a committed configuration
change increases it by exactly one; and a render against an instance whose
applied revision matches the current revision and whose unwrapped and
theme-patched flags are set re-runs neither the fence unwrap nor the theme
wrapper installation and leaves the instance text unchanged. -/
theorem C7_revision_monotonic :
    initialPatchState.revision = 0 ∧
    (∀ s, (commitState s).revision = s.revision + 1) ∧
    (∀ s s', PatchStep s s' → s.revision ≤ s'.revision) ∧
    (∀ state inst, state.options.enabled = true →
      inst.revisionApplied = some state.revision →
      inst.unwrapped = true → inst.themePatched = true →
      (patchMarkdownInstance state inst).2.1 = false ∧
      (patchMarkdownInstance state inst).2.2 = false ∧
      (patchMarkdownInstance state inst).1.text = inst.text) := by
  refine ⟨rfl, fun s => rfl, ?_, ?_⟩
  · intro s s' hstep
    cases hstep with
    | commit => exact Nat.le_succ _
    | applyPatchOnce => exact Nat.le_succ _
    | setOptions => exact Nat.le_refl _
  · intro state inst hen hrev hunw hpatch
    simp [patchMarkdownInstance, hen, hrev, hunw, hpatch]

theorem C7_witness :
    (commitState initialPatchState).revision = 1 ∧
    (patchMarkdownInstance initialPatchState
      { revisionApplied := some 0, unwrapped := true, themePatched := true,
        text := chars "t", themeIndent := none }).2.1 = false ∧
    (patchMarkdownInstance initialPatchState
      { revisionApplied := some 0, unwrapped := true, themePatched := true,
        text := chars "t", themeIndent := none }).1.text = chars "t" := by
  have h := C7_revision_monotonic
  have h4 := h.2.2.2 initialPatchState
    { revisionApplied := some 0, unwrapped := true, themePatched := true,
      text := chars "t", themeIndent := none } rfl rfl rfl rfl
  exact ⟨h.2.1 initialPatchState, h4.1, h4.2.2⟩

/-- Claim C9: with unwrapping enabled, the patched setText stores the
fence-unwrapped text and clears the per-instance unwrapped flag, and the
following render applies the fence unwrap once more to the stored text, so
the displayed text is the twice-unwrapped input (both outer fences of a
doubly wrapped message are removed across setText-then-render). -/
theorem C9_set_text_then_render (state : PatchState) (inst : MarkdownInstance)
    (text : List Char) (hen : state.options.enabled = true)
    (hun : state.options.unwrapOuterMarkdownFence = true) :
    (setTextPatched state inst text).text = stripOuterMarkdownFence text ∧
    (setTextPatched state inst text).unwrapped = false ∧
    (patchMarkdownInstance state (setTextPatched state inst text)).1.text =
      stripOuterMarkdownFence (stripOuterMarkdownFence text) := by
  refine ⟨by simp [setTextPatched, hen, hun], rfl, ?_⟩
  by_cases hrev : inst.revisionApplied = some state.revision
  · by_cases hp : inst.themePatched = true <;>
      simp [patchMarkdownInstance, setTextPatched, hen, hun, hrev, hp]
  · simp [patchMarkdownInstance, setTextPatched, hen, hun, hrev]

theorem C9_witness :
    (patchMarkdownInstance initialPatchState
      (setTextPatched initialPatchState
        { revisionApplied := none, unwrapped := false, themePatched := false,
          text := [], themeIndent := none }
        (chars "```markdown\n```md\n# Hi\n```\n```"))).1.text = chars "# Hi" := by
  have h := (C9_set_text_then_render initialPatchState
    { revisionApplied := none, unwrapped := false, themePatched := false,
      text := [], themeIndent := none }
    (chars "```markdown\n```md\n# Hi\n```\n```") rfl rfl).2.2
  rw [h]
  decide

theorem replaceAllFuel_nil (pat repl : List Char) (f : Nat) :
    replaceAllFuel pat repl f [] = [] := by
  cases f <;> rfl

theorem replaceAllFuel_congr (pat repl : List Char) :
    ∀ f1 f2 (s : List Char), s.length ≤ f1 → s.length ≤ f2 →
      replaceAllFuel pat repl f1 s = replaceAllFuel pat repl f2 s := by
  intro f1
  induction f1 with
  | zero =>
    intro f2 s h1 _
    have : s = [] := List.length_eq_zero.mp (Nat.le_zero.mp h1)
    subst this
    rw [replaceAllFuel_nil, replaceAllFuel_nil]
  | succ k ih =>
    intro f2 s h1 h2
    cases s with
    | nil => rw [replaceAllFuel_nil, replaceAllFuel_nil]
    | cons c t =>
      cases f2 with
      | zero => simp at h2
      | succ m =>
        simp only [replaceAllFuel]
        by_cases hc : pat ≠ [] ∧ pat.isPrefixOf (c :: t) = true
        · rw [if_pos hc, if_pos hc]
          have hlen : (List.drop pat.length (c :: t)).length ≤ t.length := by
            have hp : 1 ≤ pat.length := by
              cases pat with
              | nil => exact absurd rfl hc.1
              | cons a as => simp
            simp only [List.length_drop, List.length_cons]
            omega
          rw [ih m _ (le_trans hlen (Nat.lt_succ_iff.mp h1))
            (le_trans hlen (Nat.lt_succ_iff.mp h2))]
        · rw [if_neg hc, if_neg hc]
          rw [ih m t (Nat.lt_succ_iff.mp h1) (Nat.lt_succ_iff.mp h2)]

theorem replaceAll_nil (pat repl : List Char) : replaceAll pat repl [] = [] := rfl

theorem replaceAll_cons_pos (pat repl : List Char) (c : Char) (t : List Char)
    (h : pat ≠ [] ∧ pat.isPrefixOf (c :: t) = true) :
    replaceAll pat repl (c :: t) =
      repl ++ replaceAll pat repl (List.drop pat.length (c :: t)) := by
  simp only [replaceAll, List.length_cons, replaceAllFuel, if_pos h]
  congr 1
  have hp : 1 ≤ pat.length := by
    cases pat with
    | nil => exact absurd rfl h.1
    | cons a as => simp
  refine replaceAllFuel_congr pat repl t.length _ _ ?_ (le_refl _)
  simp only [List.length_drop, List.length_cons]
  omega

theorem replaceAll_cons_neg (pat repl : List Char) (c : Char) (t : List Char)
    (h : ¬(pat ≠ [] ∧ pat.isPrefixOf (c :: t) = true)) :
    replaceAll pat repl (c :: t) = c :: replaceAll pat repl t := by
  simp only [replaceAll, List.length_cons, replaceAllFuel, if_neg h]

theorem isPrefixOf_append_self (p l : List Char) : p.isPrefixOf (p ++ l) = true := by
  induction p with
  | nil => simp [List.isPrefixOf]
  | cons a as ih => simp [List.isPrefixOf, ih]

theorem eq_append_of_isPrefixOf {p l : List Char} (h : p.isPrefixOf l = true) :
    l = p ++ l.drop p.length := by
  induction p generalizing l with
  | nil => simp
  | cons a as ih =>
    cases l with
    | nil => simp [List.isPrefixOf] at h
    | cons b bs =>
      simp only [List.isPrefixOf, Bool.and_eq_true, beq_iff_eq] at h
      obtain ⟨rfl, h2⟩ := h
      simpa using ih h2

theorem isPrefixOf_cons_false_of_ne {p : Char} {ps : List Char} (c : Char)
    (l : List Char) (h : c ≠ p) : (p :: ps).isPrefixOf (c :: l) = false := by
  simp [List.isPrefixOf, Ne.symm h]

theorem sgrParam_ne_esc {c : Char} (h : isSgrParamChar c = true) : c ≠ '\x1b' := by
  intro e
  subst e
  simp [isSgrParamChar] at h

theorem sgrParam_ne_m {c : Char} (h : isSgrParamChar c = true) : c ≠ 'm' := by
  intro e
  subst e
  simp [isSgrParamChar, Char.isDigit] at h

theorem bgIntroducer_ne_nil {bg : List Char} (h : IsBgIntroducer bg) : bg ≠ [] := by
  obtain ⟨ds, -, -, -, -, rfl⟩ := h
  simp

theorem fullReset_eq : fullReset = '\x1b' :: '[' :: '0' :: 'm' :: [] := rfl

theorem bgResetSeq_eq : bgResetSeq = '\x1b' :: '[' :: '4' :: '9' :: 'm' :: [] := rfl

theorem fullReset_not_prefix_bg {bg : List Char} (hbg : IsBgIntroducer bg) (X : List Char) :
    fullReset.isPrefixOf (bg ++ X) = false := by
  obtain ⟨ds, hne, hpar, hds0, -, rfl⟩ := hbg
  cases ds with
  | nil => exact absurd rfl hne
  | cons d ds' =>
    by_cases hd : d = '0'
    · subst hd
      cases ds' with
      | nil => exact absurd rfl hds0
      | cons e ds'' =>
        have hem : e ≠ 'm' := sgrParam_ne_m (hpar e (by simp))
        simp [fullReset_eq, List.isPrefixOf, Ne.symm hem]
    · simp [fullReset_eq, List.isPrefixOf, Ne.symm hd]

theorem bgReset_not_prefix_bg {bg : List Char} (hbg : IsBgIntroducer bg) (X : List Char) :
    bgResetSeq.isPrefixOf (bg ++ X) = false := by
  obtain ⟨ds, hne, hpar, -, hds49, rfl⟩ := hbg
  cases ds with
  | nil => exact absurd rfl hne
  | cons d ds' =>
    by_cases hd : d = '4'
    · subst hd
      cases ds' with
      | nil => simp [bgResetSeq_eq, List.isPrefixOf]
      | cons e ds'' =>
        by_cases he : e = '9'
        · subst he
          cases ds'' with
          | nil => exact absurd rfl hds49
          | cons f ds3 =>
            have hfm : f ≠ 'm' := sgrParam_ne_m (hpar f (by simp))
            simp [bgResetSeq_eq, List.isPrefixOf, Ne.symm hfm]
        · simp [bgResetSeq_eq, List.isPrefixOf, Ne.symm he]
    · simp [bgResetSeq_eq, List.isPrefixOf, Ne.symm hd]

theorem bg_tail_ne_esc {bg : List Char} (hbg : IsBgIntroducer bg) :
    ∃ tl, bg = '\x1b' :: tl ∧ ∀ c ∈ tl, c ≠ '\x1b' := by
  obtain ⟨ds, -, hpar, -, -, rfl⟩ := hbg
  refine ⟨'[' :: (ds ++ ['m']), rfl, ?_⟩
  intro c hc
  rcases List.mem_cons.mp hc with rfl | hc
  · decide
  rcases List.mem_append.mp hc with hc | hc
  · exact sgrParam_ne_esc (hpar c hc)
  · rcases List.mem_singleton.mp hc with rfl
    decide

theorem goodResets_cons_true (bg : List Char) (c : Char) (t : List Char)
    (hc : c ≠ '\x1b') :
    goodResets bg (c :: t) = goodResets bg t := by
  rw [goodResets, fullReset_eq, isPrefixOf_cons_false_of_ne c t hc]
  simp

theorem goodResets_append_nonesc (bg cs X : List Char) (h : ∀ c ∈ cs, c ≠ '\x1b') :
    goodResets bg (cs ++ X) = goodResets bg X := by
  induction cs with
  | nil => rfl
  | cons c cs' ih =>
    rw [List.cons_append, goodResets_cons_true bg c _ (h c (by simp))]
    exact ih (fun x hx => h x (by simp [hx]))

theorem noOccur_cons_true (pat : List Char) (hpat : pat.head? = some '\x1b')
    (c : Char) (t : List Char) (hc : c ≠ '\x1b') :
    noOccur pat (c :: t) = noOccur pat t := by
  cases pat with
  | nil => simp at hpat
  | cons p ps =>
    simp only [List.head?_cons, Option.some.injEq] at hpat
    subst hpat
    rw [noOccur, isPrefixOf_cons_false_of_ne c t hc]
    simp

theorem noOccur_append_nonesc (pat : List Char) (hpat : pat.head? = some '\x1b')
    (cs X : List Char) (h : ∀ c ∈ cs, c ≠ '\x1b') :
    noOccur pat (cs ++ X) = noOccur pat X := by
  induction cs with
  | nil => rfl
  | cons c cs' ih =>
    rw [List.cons_append, noOccur_cons_true pat hpat c _ (h c (by simp))]
    exact ih (fun x hx => h x (by simp [hx]))

theorem goodResets_bg_append {bg : List Char} (hbg : IsBgIntroducer bg) (X : List Char) :
    goodResets bg (bg ++ X) = goodResets bg X := by
  obtain ⟨tl, hbgeq, htl⟩ := bg_tail_ne_esc hbg
  have h1 : bg ++ X = '\x1b' :: (tl ++ X) := by rw [hbgeq]; rfl
  rw [h1, goodResets, ← h1, fullReset_not_prefix_bg hbg X]
  simp only [Bool.not_false, Bool.true_or, Bool.true_and]
  exact goodResets_append_nonesc bg tl X htl

theorem noOccur_bg_append {bg : List Char} (hbg : IsBgIntroducer bg) (X : List Char) :
    noOccur bgResetSeq (bg ++ X) = noOccur bgResetSeq X := by
  obtain ⟨tl, hbgeq, htl⟩ := bg_tail_ne_esc hbg
  have h1 : bg ++ X = '\x1b' :: (tl ++ X) := by rw [hbgeq]; rfl
  rw [h1, noOccur, ← h1, bgReset_not_prefix_bg hbg X]
  simp only [Bool.not_false, Bool.true_and]
  exact noOccur_append_nonesc bgResetSeq rfl tl X htl

theorem goodResets_of_append {bg : List Char} :
    ∀ a b : List Char, goodResets bg (a ++ b) = true → goodResets bg b = true := by
  intro a
  induction a with
  | nil => exact fun b h => h
  | cons c a' ih =>
    intro b h
    rw [List.cons_append, goodResets, Bool.and_eq_true] at h
    exact ih b h.2

theorem isPrefixOf_replaceAll_rev (pat repl : List Char) (hrep : repl.head? = some '\x1b')
    (ps : List Char) (hps : ∀ c ∈ ps, c ≠ '\x1b') :
    ∀ u, ps.isPrefixOf (replaceAll pat repl u) = true → ps.isPrefixOf u = true := by
  intro u
  induction u generalizing ps with
  | nil =>
    rw [replaceAll_nil]
    intro h
    cases ps with
    | nil => rfl
    | cons p ps' => simp [List.isPrefixOf] at h
  | cons c t ih =>
    intro h
    by_cases hc : pat ≠ [] ∧ pat.isPrefixOf (c :: t) = true
    · rw [replaceAll_cons_pos pat repl c t hc] at h
      cases ps with
      | nil => rfl
      | cons p ps' =>
        cases repl with
        | nil => simp at hrep
        | cons r rl =>
          simp only [List.head?_cons, Option.some.injEq] at hrep
          subst hrep
          rw [List.cons_append,
            isPrefixOf_cons_false_of_ne '\x1b' _ (Ne.symm (hps p (by simp)))] at h
          exact absurd h (by simp)
    · rw [replaceAll_cons_neg pat repl c t hc] at h
      cases ps with
      | nil => rfl
      | cons p ps' =>
        simp only [List.isPrefixOf, Bool.and_eq_true] at h ⊢
        exact ⟨h.1, ih ps' (fun x hx => hps x (by simp [hx])) h.2⟩

theorem bool_eq_false {b : Bool} (h : ¬b = true) : b = false := by
  cases b
  · rfl
  · exact absurd rfl h

theorem replaceAll_pass_nonesc (pat repl : List Char) (hpat : pat.head? = some '\x1b')
    (cs Z : List Char) (h : ∀ c ∈ cs, c ≠ '\x1b') :
    replaceAll pat repl (cs ++ Z) = cs ++ replaceAll pat repl Z := by
  induction cs with
  | nil => rfl
  | cons c cs' ih =>
    cases pat with
    | nil => simp at hpat
    | cons p ps =>
      simp only [List.head?_cons, Option.some.injEq] at hpat
      subst hpat
      rw [List.cons_append, replaceAll_cons_neg _ _ _ _ ?_]
      · rw [ih (fun x hx => h x (by simp [hx]))]
        rfl
      · intro hcontra
        rw [isPrefixOf_cons_false_of_ne c _ (h c (by simp))] at hcontra
        exact absurd hcontra.2 (by simp)

theorem replaceAll_bgReset_bg_append {bg : List Char} (hbg : IsBgIntroducer bg)
    (Z : List Char) :
    replaceAll bgResetSeq bg (bg ++ Z) = bg ++ replaceAll bgResetSeq bg Z := by
  obtain ⟨tl, hbgeq, htl⟩ := bg_tail_ne_esc hbg
  have h1 : bg ++ Z = '\x1b' :: (tl ++ Z) := by rw [hbgeq]; rfl
  rw [h1, replaceAll_cons_neg _ _ _ _ ?_]
  · rw [replaceAll_pass_nonesc bgResetSeq bg rfl tl Z htl, hbgeq]
    rfl
  · intro hcontra
    rw [← h1, bgReset_not_prefix_bg hbg Z] at hcontra
    exact absurd hcontra.2 (by simp)

theorem goodResets_replaceAll_fullReset {bg : List Char} (hbg : IsBgIntroducer bg) :
    ∀ (n : Nat) (s : List Char), s.length ≤ n →
      goodResets bg (replaceAll fullReset (fullReset ++ bg) s) = true := by
  intro n
  induction n with
  | zero =>
    intro s h
    have hs : s = [] := List.length_eq_zero.mp (Nat.le_zero.mp h)
    subst hs
    rw [replaceAll_nil]
    rfl
  | succ k ih =>
    intro s h
    cases s with
    | nil =>
      rw [replaceAll_nil]
      rfl
    | cons c t =>
      by_cases hc : fullReset ≠ [] ∧ fullReset.isPrefixOf (c :: t) = true
      · rw [replaceAll_cons_pos _ _ _ _ hc]
        rw [show (fullReset ++ bg) ++
            replaceAll fullReset (fullReset ++ bg) (List.drop fullReset.length (c :: t)) =
            '\x1b' :: '[' :: '0' :: 'm' ::
              (bg ++ replaceAll fullReset (fullReset ++ bg)
                (List.drop fullReset.length (c :: t))) by
          rw [fullReset_eq]
          simp [List.append_assoc]]
        rw [goodResets, Bool.and_eq_true]
        constructor
        · have hpre : fullReset.isPrefixOf ('\x1b' :: '[' :: '0' :: 'm' ::
              (bg ++ replaceAll fullReset (fullReset ++ bg)
                (List.drop fullReset.length (c :: t)))) = true := by
            rw [show ('\x1b' :: '[' :: '0' :: 'm' ::
                (bg ++ replaceAll fullReset (fullReset ++ bg)
                  (List.drop fullReset.length (c :: t)))) =
              fullReset ++ (bg ++ replaceAll fullReset (fullReset ++ bg)
                (List.drop fullReset.length (c :: t))) from rfl]
            exact isPrefixOf_append_self _ _
          rw [hpre]
          rw [show List.drop 4 ('\x1b' :: '[' :: '0' :: 'm' ::
              (bg ++ replaceAll fullReset (fullReset ++ bg)
                (List.drop fullReset.length (c :: t)))) =
            bg ++ replaceAll fullReset (fullReset ++ bg)
              (List.drop fullReset.length (c :: t)) from rfl]
          rw [isPrefixOf_append_self]
          simp
        · rw [show ('[' :: '0' :: 'm' ::
              (bg ++ replaceAll fullReset (fullReset ++ bg)
                (List.drop fullReset.length (c :: t)))) =
            ['[', '0', 'm'] ++ (bg ++ replaceAll fullReset (fullReset ++ bg)
              (List.drop fullReset.length (c :: t))) from rfl]
          rw [goodResets_append_nonesc bg _ _ (by decide), goodResets_bg_append hbg]
          refine ih _ ?_
          have : (List.drop fullReset.length (c :: t)).length ≤ t.length := by
            simp only [List.length_drop, List.length_cons, fullReset_eq]
            omega
          exact le_trans this (Nat.lt_succ_iff.mp h)
      · rw [replaceAll_cons_neg _ _ _ _ hc]
        rw [goodResets, Bool.and_eq_true]
        refine ⟨?_, ih t (Nat.lt_succ_iff.mp h)⟩
        by_cases hcp : fullReset.isPrefixOf
            (c :: replaceAll fullReset (fullReset ++ bg) t) = true
        · exfalso
          rw [fullReset_eq] at hcp
          simp only [List.isPrefixOf, Bool.and_eq_true, beq_iff_eq] at hcp
          obtain ⟨hesc, hrest⟩ := hcp
          have hrest' : (['[', '0', 'm']).isPrefixOf
              (replaceAll fullReset (fullReset ++ bg) t) = true := by
            simpa [List.isPrefixOf] using hrest
          have h3 : (['[', '0', 'm']).isPrefixOf t = true :=
            isPrefixOf_replaceAll_rev fullReset (fullReset ++ bg) rfl
              ['[', '0', 'm'] (by decide) t hrest'
          apply hc
          refine ⟨by simp [fullReset_eq], ?_⟩
          rw [fullReset_eq, ← hesc]
          simpa [List.isPrefixOf] using h3
        · rw [bool_eq_false hcp]
          rfl

theorem goodResets_replaceAll_bgReset {bg : List Char} (hbg : IsBgIntroducer bg) :
    ∀ (n : Nat) (W : List Char), W.length ≤ n → goodResets bg W = true →
      goodResets bg (replaceAll bgResetSeq bg W) = true := by
  have hbghead : ∃ tl, bg = '\x1b' :: tl := by
    obtain ⟨tl, hbgeq, -⟩ := bg_tail_ne_esc hbg
    exact ⟨tl, hbgeq⟩
  intro n
  induction n with
  | zero =>
    intro W h _
    have hs : W = [] := List.length_eq_zero.mp (Nat.le_zero.mp h)
    subst hs
    rw [replaceAll_nil]
    rfl
  | succ k ih =>
    intro W h hgood
    cases W with
    | nil =>
      rw [replaceAll_nil]
      rfl
    | cons c t =>
      by_cases hc : bgResetSeq ≠ [] ∧ bgResetSeq.isPrefixOf (c :: t) = true
      · rw [replaceAll_cons_pos _ _ _ _ hc, goodResets_bg_append hbg]
        have hW : (c :: t) = bgResetSeq ++ (c :: t).drop bgResetSeq.length :=
          eq_append_of_isPrefixOf hc.2
        have hgood2 : goodResets bg ((c :: t).drop bgResetSeq.length) = true := by
          apply goodResets_of_append bgResetSeq
          rw [← hW]
          exact hgood
        refine ih _ ?_ hgood2
        have : ((c :: t).drop bgResetSeq.length).length ≤ t.length := by
          simp only [List.length_drop, List.length_cons, bgResetSeq_eq]
          omega
        exact le_trans this (Nat.lt_succ_iff.mp h)
      · rw [replaceAll_cons_neg _ _ _ _ hc]
        rw [goodResets, Bool.and_eq_true]
        rw [goodResets, Bool.and_eq_true] at hgood
        refine ⟨?_, ih t (Nat.lt_succ_iff.mp h) hgood.2⟩
        by_cases hcp : fullReset.isPrefixOf (c :: replaceAll bgResetSeq bg t) = true
        · rw [fullReset_eq] at hcp
          simp only [List.isPrefixOf, Bool.and_eq_true, beq_iff_eq] at hcp
          obtain ⟨hesc, hrest⟩ := hcp
          have hrest' : (['[', '0', 'm']).isPrefixOf (replaceAll bgResetSeq bg t) = true := by
            simpa [List.isPrefixOf] using hrest
          obtain ⟨tlbg, hbgeq⟩ := hbghead
          have h3 : (['[', '0', 'm']).isPrefixOf t = true :=
            isPrefixOf_replaceAll_rev bgResetSeq bg (by rw [hbgeq]; rfl)
              ['[', '0', 'm'] (by decide) t hrest'
          have ht : t = ['[', '0', 'm'] ++ t.drop 3 := by
            have := eq_append_of_isPrefixOf h3
            simpa using this
          have hfull : fullReset.isPrefixOf (c :: t) = true := by
            rw [fullReset_eq, ← hesc]
            simpa [List.isPrefixOf] using h3
          have hbgq : bg.isPrefixOf (List.drop 4 (c :: t)) = true := by
            have h1 := hgood.1
            rw [hfull] at h1
            simpa using h1
          have hbgq' : bg.isPrefixOf (t.drop 3) = true := by
            simpa using hbgq
          have htq : t.drop 3 = bg ++ (t.drop 3).drop bg.length :=
            eq_append_of_isPrefixOf hbgq'
          rw [Bool.or_eq_true]
          right
          rw [show List.drop 4 (c :: replaceAll bgResetSeq bg t) =
            List.drop 3 (replaceAll bgResetSeq bg t) from by simp]
          conv_lhs =>
            rw [ht, replaceAll_pass_nonesc bgResetSeq bg rfl
              ['[', '0', 'm'] _ (by decide)]
          rw [show List.drop 3 (['[', '0', 'm'] ++
              replaceAll bgResetSeq bg (t.drop 3)) =
            replaceAll bgResetSeq bg (t.drop 3) from rfl]
          rw [htq, replaceAll_bgReset_bg_append hbg]
          exact isPrefixOf_append_self _ _
        · rw [bool_eq_false hcp]
          rfl

theorem noOccur_replaceAll_bgReset {bg : List Char} (hbg : IsBgIntroducer bg) :
    ∀ (n : Nat) (W : List Char), W.length ≤ n →
      noOccur bgResetSeq (replaceAll bgResetSeq bg W) = true := by
  have hbghead : ∃ tl, bg = '\x1b' :: tl := by
    obtain ⟨tl, hbgeq, -⟩ := bg_tail_ne_esc hbg
    exact ⟨tl, hbgeq⟩
  intro n
  induction n with
  | zero =>
    intro W h
    have hs : W = [] := List.length_eq_zero.mp (Nat.le_zero.mp h)
    subst hs
    rw [replaceAll_nil]
    rfl
  | succ k ih =>
    intro W h
    cases W with
    | nil =>
      rw [replaceAll_nil]
      rfl
    | cons c t =>
      by_cases hc : bgResetSeq ≠ [] ∧ bgResetSeq.isPrefixOf (c :: t) = true
      · rw [replaceAll_cons_pos _ _ _ _ hc, noOccur_bg_append hbg]
        refine ih _ ?_
        have : ((c :: t).drop bgResetSeq.length).length ≤ t.length := by
          simp only [List.length_drop, List.length_cons, bgResetSeq_eq]
          omega
        exact le_trans this (Nat.lt_succ_iff.mp h)
      · rw [replaceAll_cons_neg _ _ _ _ hc]
        rw [noOccur, Bool.and_eq_true]
        refine ⟨?_, ih t (Nat.lt_succ_iff.mp h)⟩
        by_cases hcp : bgResetSeq.isPrefixOf (c :: replaceAll bgResetSeq bg t) = true
        · exfalso
          rw [bgResetSeq_eq] at hcp
          simp only [List.isPrefixOf, Bool.and_eq_true, beq_iff_eq] at hcp
          obtain ⟨hesc, hrest⟩ := hcp
          have hrest' : (['[', '4', '9', 'm']).isPrefixOf
              (replaceAll bgResetSeq bg t) = true := by
            simpa [List.isPrefixOf] using hrest
          obtain ⟨tlbg, hbgeq⟩ := hbghead
          have h3 : (['[', '4', '9', 'm']).isPrefixOf t = true :=
            isPrefixOf_replaceAll_rev bgResetSeq bg (by rw [hbgeq]; rfl)
              ['[', '4', '9', 'm'] (by decide) t hrest'
          apply hc
          refine ⟨by simp [bgResetSeq_eq], ?_⟩
          rw [bgResetSeq_eq, ← hesc]
          simpa [List.isPrefixOf] using h3
        · rw [bool_eq_false hcp]
          rfl

theorem goodResets_spec {bg l : List Char} (h : goodResets bg l = true) :
    ∀ p q, l = p ++ fullReset ++ q → bg.isPrefixOf q = true := by
  intro p
  induction p generalizing l with
  | nil =>
    intro q hq
    subst hq
    rw [show ([] : List Char) ++ fullReset ++ q = '\x1b' :: '[' :: '0' :: 'm' :: q
      from rfl] at h
    rw [goodResets, Bool.and_eq_true] at h
    have h1 := h.1
    rw [show ('\x1b' :: '[' :: '0' :: 'm' :: q) = fullReset ++ q from rfl,
      isPrefixOf_append_self] at h1
    simpa using h1
  | cons c p' ih =>
    intro q hq
    subst hq
    rw [show ((c :: p') ++ fullReset ++ q) = c :: (p' ++ fullReset ++ q) from rfl] at h
    rw [goodResets, Bool.and_eq_true] at h
    exact ih h.2 q rfl

theorem noOccur_spec {pat l : List Char} (hp : pat ≠ []) (h : noOccur pat l = true) :
    ∀ p q, l ≠ p ++ pat ++ q := by
  intro p
  induction p generalizing l with
  | nil =>
    intro q hq
    subst hq
    cases pat with
    | nil => exact absurd rfl hp
    | cons a as =>
      rw [show (([] : List Char) ++ (a :: as) ++ q) = a :: (as ++ q) from rfl,
        noOccur, Bool.and_eq_true] at h
      have h1 := h.1
      rw [show (a :: (as ++ q)) = (a :: as) ++ q from rfl, isPrefixOf_append_self] at h1
      simp at h1
  | cons c p' ih =>
    intro q hq
    subst hq
    rw [show ((c :: p') ++ pat ++ q) = c :: (p' ++ pat ++ q) from rfl,
      noOccur, Bool.and_eq_true] at h
    exact ih h.2 q rfl

theorem applyCodeBg_eq_of_set {opts : TuiPatchOptions} {bg : List Char}
    (hset : opts.codeBlockBgAnsi = some bg) (hne : bg ≠ []) (s : List Char) :
    applyCodeBg opts s =
      bg ++ replaceAll bgResetSeq bg (replaceAll fullReset (fullReset ++ bg) s) := by
  simp [applyCodeBg, bgAnsiVal, hset, hne]

theorem applyCodeBg_noBgReset {opts : TuiPatchOptions} {bg : List Char}
    (hset : opts.codeBlockBgAnsi = some bg) (hform : IsBgIntroducer bg)
    (s : List Char) : noOccur bgResetSeq (applyCodeBg opts s) = true := by
  rw [applyCodeBg_eq_of_set hset (bgIntroducer_ne_nil hform) s, noOccur_bg_append hform]
  exact noOccur_replaceAll_bgReset hform _ _ (le_refl _)

/-- Claim C2 counterexample: the claim constrains the background introducer
only by being set, but with the (nonempty) introducer `ESC[0` and input
`ESC[0m m` the output `ESC[0 ESC[0m ESC[0m` ends with a full reset that is
not followed by the introducer. -/
theorem C2_counterexample :
    (mkBgOptions (chars "\x1b[0")).codeBlockBgAnsi = some (chars "\x1b[0") ∧
    chars "\x1b[0" ≠ [] ∧
    applyCodeBg (mkBgOptions (chars "\x1b[0")) (chars "\x1b[0mm") =
      chars "\x1b[0\x1b[0m" ++ fullReset ++ [] ∧
    (chars "\x1b[0").isPrefixOf ([] : List Char) = false := by
  exact ⟨rfl, by decide, by decide, by decide⟩

/-- Claim C2 (amended): when the background introducer is unset the
function is the identity; when it is set to a well-formed SGR background
introducer, the output begins with the introducer, the introducer
immediately follows every full-reset sequence occurring in the output, and
no background-reset sequence remains in the output (every one is rewritten
to the introducer). -/
theorem C2_background_injection (opts : TuiPatchOptions) (bg s : List Char)
    (hset : opts.codeBlockBgAnsi = some bg) (hform : IsBgIntroducer bg) :
    (∀ opts2 : TuiPatchOptions, opts2.codeBlockBgAnsi = none →
      applyCodeBg opts2 s = s) ∧
    (∃ rest, applyCodeBg opts s = bg ++ rest) ∧
    (∀ p q, applyCodeBg opts s = p ++ fullReset ++ q → bg.isPrefixOf q = true) ∧
    (∀ p q, applyCodeBg opts s ≠ p ++ bgResetSeq ++ q) := by
  have hbgne : bg ≠ [] := bgIntroducer_ne_nil hform
  have happ := applyCodeBg_eq_of_set hset hbgne s
  have hgood : goodResets bg (applyCodeBg opts s) = true := by
    rw [happ, goodResets_bg_append hform]
    exact goodResets_replaceAll_bgReset hform _ _ (le_refl _)
      (goodResets_replaceAll_fullReset hform _ s (le_refl _))
  refine ⟨?_, ⟨_, happ⟩, ?_, ?_⟩
  · intro opts2 h2
    simp [applyCodeBg, bgAnsiVal, h2]
  · exact fun p q hpq => goodResets_spec hgood p q hpq
  · exact fun p q => noOccur_spec (by decide) (applyCodeBg_noBgReset hset hform s) p q

theorem C2_witness :
    ∃ rest, applyCodeBg (mkBgOptions (chars "\x1b[44m")) (chars "a\x1b[0mb") =
      chars "\x1b[44m" ++ rest :=
  (C2_background_injection (mkBgOptions (chars "\x1b[44m")) (chars "\x1b[44m")
    (chars "a\x1b[0mb") rfl
    ⟨chars "44", by decide, by decide, by decide, by decide, by decide⟩).2.1

/-- Claim C10 counterexample: the claim's hypothesis — the introducer
itself contains no background-reset sequence — is not sufficient: with the
introducer `ESC[4` (which contains no `ESC[49m`) and input `ESC[49m 9m`,
the replacement is not rescanned but the introducer completes with the
following text to a new `ESC[49m` in the output. -/
theorem C10_counterexample :
    noOccur bgResetSeq (chars "\x1b[4") = true ∧
    applyCodeBg (mkBgOptions (chars "\x1b[4")) (chars "\x1b[49m9m") =
      chars "\x1b[4" ++ bgResetSeq ++ [] ∧
    noOccur bgResetSeq
      (applyCodeBg (mkBgOptions (chars "\x1b[4")) (chars "\x1b[49m9m")) = false := by
  exact ⟨by decide, by decide, by decide⟩

/-- Claim C10 (amended): when the background introducer is set to a
well-formed SGR background introducer, the output of `applyCodeBg` contains
no occurrence of the background-reset sequence `ESC[49m`: every occurrence
in the input is replaced by the introducer rather than kept. -/
theorem C10_no_bg_reset (opts : TuiPatchOptions) (bg s : List Char)
    (hset : opts.codeBlockBgAnsi = some bg) (hform : IsBgIntroducer bg) :
    ∀ p q, applyCodeBg opts s ≠ p ++ bgResetSeq ++ q :=
  fun p q => noOccur_spec (by decide) (applyCodeBg_noBgReset hset hform s) p q

theorem C10_witness :
    applyCodeBg (mkBgOptions (chars "\x1b[44m")) (chars "x\x1b[49my") ≠
      [] ++ bgResetSeq ++ [] :=
  C10_no_bg_reset (mkBgOptions (chars "\x1b[44m")) (chars "\x1b[44m")
    (chars "x\x1b[49my") rfl
    ⟨chars "44", by decide, by decide, by decide, by decide, by decide⟩ [] []

theorem dropWhile_append_of_all {p : Char → Bool} {w : List Char}
    (h : ∀ c ∈ w, p c = true) (x : List Char) :
    (w ++ x).dropWhile p = x.dropWhile p := by
  induction w with
  | nil => rfl
  | cons c w' ih =>
    rw [List.cons_append, List.dropWhile_cons, if_pos (h c (by simp))]
    exact ih (fun a ha => h a (by simp [ha]))

theorem ws_of_mem_takeWhile {p : Char → Bool} :
    ∀ {l : List Char} {c : Char}, c ∈ l.takeWhile p → p c = true := by
  intro l
  induction l with
  | nil =>
    intro c hc
    simp [List.takeWhile] at hc
  | cons a t ih =>
    intro c hc
    rw [List.takeWhile_cons] at hc
    by_cases hp : p a
    · rw [if_pos hp] at hc
      rcases List.mem_cons.mp hc with rfl | hc
      · exact hp
      · exact ih hc
    · rw [if_neg hp] at hc
      simp at hc

theorem take_takeWhile_eq {p : Char → Bool} :
    ∀ (l : List Char) (kk : Nat), kk ≤ (l.takeWhile p).length →
      l.take kk = (l.takeWhile p).take kk := by
  intro l
  induction l with
  | nil =>
    intro kk _
    simp
  | cons a t ih =>
    intro kk h
    rw [List.takeWhile_cons] at h ⊢
    by_cases hp : p a
    · rw [if_pos hp] at h ⊢
      cases kk with
      | zero => simp
      | succ k =>
        simp only [List.take_succ_cons]
        rw [ih k (by simpa using h)]
    · rw [if_neg hp] at h
      have hk0 : kk = 0 := by simpa using h
      subst hk0
      simp

theorem length_takeWhile_ge {p : Char → Bool} :
    ∀ (w x : List Char), (∀ c ∈ w, p c = true) →
      w.length ≤ ((w ++ x).takeWhile p).length := by
  intro w
  induction w with
  | nil =>
    intro x _
    simp
  | cons c w' ih =>
    intro x h
    rw [List.cons_append, List.takeWhile_cons, if_pos (h c (by simp))]
    simpa using ih x (fun a ha => h a (by simp [ha]))

theorem jsTrimEnd_append_ws (x w : List Char) (h : AllWs w) :
    jsTrimEnd (x ++ w) = jsTrimEnd x := by
  unfold jsTrimEnd
  rw [List.reverse_append, dropWhile_append_of_all (fun c hc => h c (List.mem_reverse.mp hc))]

theorem jsTrimEnd_snoc_nonws (y : List Char) (c : Char) (h : isJsWs c = false) :
    jsTrimEnd (y ++ [c]) = y ++ [c] := by
  unfold jsTrimEnd
  rw [List.reverse_append]
  rw [show ([c].reverse ++ y.reverse) = c :: y.reverse from by simp]
  rw [List.dropWhile_cons, if_neg (by simp [h])]
  simp

theorem jsTrimEnd_decomp (l : List Char) : ∃ w, AllWs w ∧ l = jsTrimEnd l ++ w := by
  refine ⟨(l.reverse.takeWhile isJsWs).reverse, ?_, ?_⟩
  · intro c hc
    exact ws_of_mem_takeWhile (List.mem_reverse.mp hc)
  · have hsplit := @List.takeWhile_append_dropWhile Char isJsWs l.reverse
    show l = (l.reverse.dropWhile isJsWs).reverse ++ (l.reverse.takeWhile isJsWs).reverse
    conv_lhs => rw [← List.reverse_reverse l, ← hsplit, List.reverse_append]

theorem asciiLower_eq_m {c : Char} (h : asciiLower c = 'm') : c = 'm' ∨ c = 'M' := by
  unfold asciiLower at h
  split at h
  · rename_i hc
    right
    have hle : c.toNat ≤ 90 := hc.2
    have hval : Nat.isValidChar (c.toNat + 32) := by
      unfold Nat.isValidChar
      left
      omega
    have htn : (Char.ofNat (c.toNat + 32)).toNat = c.toNat + 32 := by
      unfold Char.ofNat
      rw [dif_pos hval]
      rfl
    have h109 : c.toNat + 32 = 109 := by
      rw [← htn, h]
      rfl
    have hc77 : c.toNat = 77 := by omega
    have hofn := Char.ofNat_toNat c
    rw [hc77] at hofn
    rw [← hofn]
  · left
    exact h

theorem ciTag_head {tag : List Char} (h : CiTag tag) :
    ∃ c tg, tag = c :: tg ∧ isJsWs c = false := by
  have hm : ∃ c tg, tag = c :: tg ∧ asciiLower c = 'm' := by
    rcases h with h | h
    · cases tag with
      | nil => exact absurd h (by decide)
      | cons c tg =>
        refine ⟨c, tg, rfl, ?_⟩
        have h2 := congrArg List.head? h
        rw [show (chars "markdown").head? = some 'm' from rfl] at h2
        simpa using h2
    · cases tag with
      | nil => exact absurd h (by decide)
      | cons c tg =>
        refine ⟨c, tg, rfl, ?_⟩
        have h2 := congrArg List.head? h
        rw [show (chars "md").head? = some 'm' from rfl] at h2
        simpa using h2
  obtain ⟨c, tg, rfl, hc⟩ := hm
  rcases asciiLower_eq_m hc with rfl | rfl
  · exact ⟨'m', tg, rfl, by decide⟩
  · exact ⟨'M', tg, rfl, by decide⟩

theorem stripCI_sound :
    ∀ (pat l r : List Char), stripCI pat l = some r →
      ∃ tag, l = tag ++ r ∧ tag.map asciiLower = pat.map asciiLower := by
  intro pat
  induction pat with
  | nil =>
    intro l r h
    simp only [stripCI, Option.some.injEq] at h
    exact ⟨[], by simp [h], by simp⟩
  | cons p ps ih =>
    intro l r h
    cases l with
    | nil => simp [stripCI] at h
    | cons c cs =>
      simp only [stripCI] at h
      by_cases heq : asciiLower c = asciiLower p
      · rw [if_pos heq] at h
        obtain ⟨tag, hsplit, hmap⟩ := ih cs r h
        exact ⟨c :: tag, by simp [hsplit], by simp [hmap, heq]⟩
      · rw [if_neg heq] at h
        exact absurd h (by simp)

theorem stripCI_complete :
    ∀ (pat tag r : List Char), tag.map asciiLower = pat.map asciiLower →
      stripCI pat (tag ++ r) = some r := by
  intro pat
  induction pat with
  | nil =>
    intro tag r h
    have htag : tag = [] := by simpa using h
    subst htag
    rfl
  | cons p ps ih =>
    intro tag r h
    cases tag with
    | nil => simp at h
    | cons c tg =>
      simp only [List.map_cons, List.cons.injEq] at h
      rw [List.cons_append]
      simp only [stripCI, if_pos h.1]
      exact ih tg r h.2

theorem nlStrip_sound {l r : List Char} (h : nlStrip l = some r) :
    ∃ nl, NlTok nl ∧ l = nl ++ r := by
  unfold nlStrip at h
  split at h
  · injection h with h
    subst h
    exact ⟨['\r', '\n'], Or.inr rfl, rfl⟩
  · injection h with h
    subst h
    exact ⟨['\n'], Or.inl rfl, rfl⟩
  · exact absurd h (by simp)

theorem nlStrip_complete (nl r : List Char) (h : NlTok nl) : nlStrip (nl ++ r) = some r := by
  rcases h with rfl | rfl
  · rfl
  · rfl

theorem fence3_eq : fence3 = ['`', '`', '`'] := rfl

theorem suffixBody_sound {l b : List Char} (h : suffixBody l = some b) :
    ∃ nl2 w3, NlTok nl2 ∧ AllWs w3 ∧ l = b ++ nl2 ++ fence3 ++ w3 := by
  obtain ⟨w3, hw3, hdec⟩ := jsTrimEnd_decomp l
  unfold suffixBody at h
  by_cases h5 : (jsTrimEnd l).drop ((jsTrimEnd l).length - 5) = chars "\r\n```" ∧
      5 ≤ (jsTrimEnd l).length
  · rw [if_pos h5] at h
    injection h with h
    have hcore : jsTrimEnd l = b ++ chars "\r\n```" := by
      rw [← h, ← h5.1]
      exact (List.take_append_drop _ _).symm
    refine ⟨['\r', '\n'], w3, Or.inr rfl, hw3, ?_⟩
    rw [hdec, hcore]
    simp [chars, fence3, List.append_assoc]
  · rw [if_neg h5] at h
    by_cases h4 : (jsTrimEnd l).drop ((jsTrimEnd l).length - 4) = chars "\n```" ∧
        4 ≤ (jsTrimEnd l).length
    · rw [if_pos h4] at h
      injection h with h
      have hcore : jsTrimEnd l = b ++ chars "\n```" := by
        rw [← h, ← h4.1]
        exact (List.take_append_drop _ _).symm
      refine ⟨['\n'], w3, Or.inl rfl, hw3, ?_⟩
      rw [hdec, hcore]
      simp [chars, fence3, List.append_assoc]
    · rw [if_neg h4] at h
      exact absurd h (by simp)

theorem suffixBody_complete (b nl2 w3 : List Char) (hnl : NlTok nl2) (hw3 : AllWs w3) :
    ∃ b', suffixBody (b ++ nl2 ++ fence3 ++ w3) = some b' := by
  have hcore : jsTrimEnd (b ++ nl2 ++ fence3 ++ w3) = b ++ nl2 ++ fence3 := by
    rw [show b ++ nl2 ++ fence3 ++ w3 = (b ++ nl2 ++ fence3) ++ w3 from by
      simp [List.append_assoc]]
    rw [jsTrimEnd_append_ws _ _ hw3]
    rw [show b ++ nl2 ++ fence3 = (b ++ nl2 ++ ['`', '`']) ++ ['`'] from by
      simp [fence3_eq, List.append_assoc]]
    rw [jsTrimEnd_snoc_nonws _ _ (by decide)]
  unfold suffixBody
  rw [hcore]
  by_cases h5 : (b ++ nl2 ++ fence3).drop ((b ++ nl2 ++ fence3).length - 5) =
      chars "\r\n```" ∧ 5 ≤ (b ++ nl2 ++ fence3).length
  · rw [if_pos h5]
    exact ⟨_, rfl⟩
  · rw [if_neg h5]
    have h4 : (b ++ nl2 ++ fence3).drop ((b ++ nl2 ++ fence3).length - 4) =
        chars "\n```" ∧ 4 ≤ (b ++ nl2 ++ fence3).length := by
      rcases hnl with rfl | rfl
      · have hlen : (b ++ ['\n'] ++ fence3).length = b.length + 4 := by
          simp [fence3_eq]
        constructor
        · rw [hlen]
          rw [show b.length + 4 - 4 = b.length from by omega]
          rw [show b ++ ['\n'] ++ fence3 = b ++ (['\n'] ++ fence3) from by
            simp [List.append_assoc]]
          rw [List.drop_left]
          rfl
        · rw [hlen]
          omega
      · exfalso
        apply h5
        have hlen : (b ++ ['\r', '\n'] ++ fence3).length = b.length + 5 := by
          simp [fence3_eq]
        constructor
        · rw [hlen]
          rw [show b.length + 5 - 5 = b.length from by omega]
          rw [show b ++ ['\r', '\n'] ++ fence3 = b ++ (['\r', '\n'] ++ fence3) from by
            simp [List.append_assoc]]
          rw [List.drop_left]
          rfl
        · rw [hlen]
          omega
    rw [if_pos h4]
    exact ⟨_, rfl⟩

theorem tryFenceAt_sound {rest2 : List Char} {kk : Nat} {b : List Char}
    (hk : kk ≤ (rest2.takeWhile isJsWs).length) (h : tryFenceAt rest2 kk = some b) :
    ∃ nl1 nl2 w3, AllWs (rest2.take kk) ∧ NlTok nl1 ∧ NlTok nl2 ∧ AllWs w3 ∧
      rest2 = rest2.take kk ++ nl1 ++ b ++ nl2 ++ fence3 ++ w3 := by
  unfold tryFenceAt at h
  split at h
  · rename_i rem hns
    obtain ⟨nl1, hnl1, hdropeq⟩ := nlStrip_sound hns
    obtain ⟨nl2, w3, hnl2, hw3, hrem⟩ := suffixBody_sound h
    have hws : AllWs (rest2.take kk) := by
      intro c hc
      rw [take_takeWhile_eq rest2 kk hk] at hc
      exact ws_of_mem_takeWhile ((List.take_sublist _ _).mem hc)
    refine ⟨nl1, nl2, w3, hws, hnl1, hnl2, hw3, ?_⟩
    calc rest2 = rest2.take kk ++ rest2.drop kk := (List.take_append_drop kk rest2).symm
      _ = rest2.take kk ++ (nl1 ++ rem) := by rw [hdropeq]
      _ = rest2.take kk ++ (nl1 ++ (b ++ nl2 ++ fence3 ++ w3)) := by rw [hrem]
      _ = rest2.take kk ++ nl1 ++ b ++ nl2 ++ fence3 ++ w3 := by
        simp [List.append_assoc]
  · exact absurd h (by simp)

theorem tryFenceAt_complete (w2 nl1 b nl2 w3 : List Char) (hw2 : AllWs w2)
    (hnl1 : NlTok nl1) (hnl2 : NlTok nl2) (hw3 : AllWs w3) :
    (∃ b', tryFenceAt (w2 ++ nl1 ++ b ++ nl2 ++ fence3 ++ w3) w2.length = some b') ∧
    w2.length ≤ ((w2 ++ nl1 ++ b ++ nl2 ++ fence3 ++ w3).takeWhile isJsWs).length := by
  have hassoc : w2 ++ nl1 ++ b ++ nl2 ++ fence3 ++ w3 =
      w2 ++ (nl1 ++ (b ++ nl2 ++ fence3 ++ w3)) := by
    simp [List.append_assoc]
  constructor
  · obtain ⟨b', hb'⟩ := suffixBody_complete b nl2 w3 hnl2 hw3
    refine ⟨b', ?_⟩
    unfold tryFenceAt
    rw [hassoc, List.drop_left, nlStrip_complete nl1 _ hnl1]
    exact hb'
  · rw [hassoc]
    exact length_takeWhile_ge w2 _ hw2

theorem fenceTailSearch_sound {rest2 : List Char} :
    ∀ (K : Nat) (b : List Char), fenceTailSearch rest2 K = some b →
      ∃ kk, kk ≤ K ∧ tryFenceAt rest2 kk = some b := by
  intro K
  induction K with
  | zero =>
    intro b h
    exact ⟨0, le_refl 0, h⟩
  | succ k ih =>
    intro b h
    unfold fenceTailSearch at h
    split at h
    · rename_i b2 htry
      injection h with h
      subst h
      exact ⟨k + 1, le_refl _, htry⟩
    · rename_i htry
      obtain ⟨kk, hkk, h2⟩ := ih b h
      exact ⟨kk, le_trans hkk (Nat.le_succ k), h2⟩

theorem fenceTailSearch_complete {rest2 : List Char} :
    ∀ (K kk : Nat) (b : List Char), kk ≤ K → tryFenceAt rest2 kk = some b →
      ∃ b', fenceTailSearch rest2 K = some b' := by
  intro K
  induction K with
  | zero =>
    intro kk b hk h
    have hkk : kk = 0 := Nat.le_zero.mp hk
    subst hkk
    exact ⟨b, h⟩
  | succ k ih =>
    intro kk b hk h
    cases htry : tryFenceAt rest2 (k + 1) with
    | some b2 =>
      refine ⟨b2, ?_⟩
      unfold fenceTailSearch
      rw [htry]
    | none =>
      have hkk : kk ≤ k := by
        by_cases he : kk = k + 1
        · subst he
          rw [h] at htry
          exact absurd htry (by simp)
        · omega
      obtain ⟨b', hb'⟩ := ih kk b hkk h
      refine ⟨b', ?_⟩
      unfold fenceTailSearch
      rw [htry]
      exact hb'

theorem fenceMatch_sound {t b : List Char} (h : fenceMatch t = some b) : FenceSplit t b := by
  unfold fenceMatch at h
  by_cases hpre : fence3.isPrefixOf t = true
  · rw [if_pos hpre] at h
    have ht3 : t = fence3 ++ t.drop 3 := by
      have h2 := eq_append_of_isPrefixOf hpre
      rw [show fence3.length = 3 from rfl] at h2
      exact h2
    cases hmk : stripCI (chars "markdown") ((t.drop 3).dropWhile isJsWs) with
    | some rest2 =>
      simp only [hmk] at h
      obtain ⟨tag, hsplit2, hmap⟩ := stripCI_sound _ _ _ hmk
      obtain ⟨kk, hkk, htry⟩ := fenceTailSearch_sound _ b h
      obtain ⟨nl1, nl2, w3, hw2, hnl1, hnl2, hw3, hrest2⟩ := tryFenceAt_sound hkk htry
      refine ⟨(t.drop 3).takeWhile isJsWs, tag, rest2.take kk, nl1, nl2, w3,
        ?_, ?_, hw2, hnl1, hnl2, hw3, ?_⟩
      · intro c hc
        exact ws_of_mem_takeWhile hc
      · left
        rw [hmap]
        decide
      · calc t = fence3 ++ t.drop 3 := ht3
          _ = fence3 ++ ((t.drop 3).takeWhile isJsWs ++ (t.drop 3).dropWhile isJsWs) := by
            rw [@List.takeWhile_append_dropWhile Char isJsWs (t.drop 3)]
          _ = fence3 ++ ((t.drop 3).takeWhile isJsWs ++ (tag ++ rest2)) := by rw [hsplit2]
          _ = fence3 ++ ((t.drop 3).takeWhile isJsWs ++
              (tag ++ (rest2.take kk ++ nl1 ++ b ++ nl2 ++ fence3 ++ w3))) := by
            rw [← hrest2]
          _ = fence3 ++ (t.drop 3).takeWhile isJsWs ++ tag ++ rest2.take kk ++ nl1 ++ b ++
              nl2 ++ fence3 ++ w3 := by
            simp [List.append_assoc]
    | none =>
      cases hmd : stripCI (chars "md") ((t.drop 3).dropWhile isJsWs) with
      | some rest2 =>
        simp only [hmk, hmd] at h
        obtain ⟨tag, hsplit2, hmap⟩ := stripCI_sound _ _ _ hmd
        obtain ⟨kk, hkk, htry⟩ := fenceTailSearch_sound _ b h
        obtain ⟨nl1, nl2, w3, hw2, hnl1, hnl2, hw3, hrest2⟩ := tryFenceAt_sound hkk htry
        refine ⟨(t.drop 3).takeWhile isJsWs, tag, rest2.take kk, nl1, nl2, w3,
          ?_, ?_, hw2, hnl1, hnl2, hw3, ?_⟩
        · intro c hc
          exact ws_of_mem_takeWhile hc
        · right
          rw [hmap]
          decide
        · calc t = fence3 ++ t.drop 3 := ht3
            _ = fence3 ++ ((t.drop 3).takeWhile isJsWs ++ (t.drop 3).dropWhile isJsWs) := by
              rw [@List.takeWhile_append_dropWhile Char isJsWs (t.drop 3)]
            _ = fence3 ++ ((t.drop 3).takeWhile isJsWs ++ (tag ++ rest2)) := by rw [hsplit2]
            _ = fence3 ++ ((t.drop 3).takeWhile isJsWs ++
                (tag ++ (rest2.take kk ++ nl1 ++ b ++ nl2 ++ fence3 ++ w3))) := by
              rw [← hrest2]
            _ = fence3 ++ (t.drop 3).takeWhile isJsWs ++ tag ++ rest2.take kk ++ nl1 ++ b ++
                nl2 ++ fence3 ++ w3 := by
              simp [List.append_assoc]
      | none =>
        simp only [hmk, hmd] at h
        exact absurd h (by simp)
  · rw [if_neg hpre] at h
    exact absurd h (by simp)

theorem fenceMatch_complete {t b : List Char} (h : FenceSplit t b) :
    ∃ b', fenceMatch t = some b' := by
  obtain ⟨w1, tag, w2, nl1, nl2, w3, hw1, htag, hw2, hnl1, hnl2, hw3, ht⟩ := h
  have hpre : fence3.isPrefixOf t = true := by
    rw [ht]
    exact isPrefixOf_append_self _ _
  have hdrop3 : t.drop 3 = w1 ++ tag ++ w2 ++ nl1 ++ b ++ nl2 ++ fence3 ++ w3 := by
    rw [ht, show (3 : Nat) = fence3.length from rfl]
    rw [show fence3 ++ w1 ++ tag ++ w2 ++ nl1 ++ b ++ nl2 ++ fence3 ++ w3 =
      fence3 ++ (w1 ++ tag ++ w2 ++ nl1 ++ b ++ nl2 ++ fence3 ++ w3) from by
        simp [List.append_assoc]]
    rw [List.drop_left]
  obtain ⟨c0, tg, htg, hc0⟩ := ciTag_head htag
  have hdw : (t.drop 3).dropWhile isJsWs =
      tag ++ (w2 ++ nl1 ++ b ++ nl2 ++ fence3 ++ w3) := by
    rw [hdrop3]
    rw [show w1 ++ tag ++ w2 ++ nl1 ++ b ++ nl2 ++ fence3 ++ w3 =
      w1 ++ (tag ++ (w2 ++ nl1 ++ b ++ nl2 ++ fence3 ++ w3)) from by
        simp [List.append_assoc]]
    rw [dropWhile_append_of_all hw1, htg, List.cons_append, List.dropWhile_cons,
      if_neg (by simp [hc0])]
  rcases htag with hmap | hmap
  · have hmk : stripCI (chars "markdown") ((t.drop 3).dropWhile isJsWs) =
        some (w2 ++ nl1 ++ b ++ nl2 ++ fence3 ++ w3) := by
      rw [hdw]
      apply stripCI_complete
      rw [hmap]
      decide
    obtain ⟨hex, hle⟩ := tryFenceAt_complete w2 nl1 b nl2 w3 hw2 hnl1 hnl2 hw3
    obtain ⟨b0, hb0⟩ := hex
    obtain ⟨b', hb'⟩ := fenceTailSearch_complete _ w2.length b0 hle hb0
    refine ⟨b', ?_⟩
    unfold fenceMatch
    rw [if_pos hpre]
    simp only [hmk]
    exact hb'
  · have hshape : ∃ c1 c2, tag = [c1, c2] ∧ asciiLower c1 = 'm' ∧ asciiLower c2 = 'd' := by
      cases tag with
      | nil => exact absurd hmap (by decide)
      | cons c1 r1 =>
        cases r1 with
        | nil =>
          exfalso
          have := congrArg List.length hmap
          simp [chars] at this
        | cons c2 r2 =>
          cases r2 with
          | cons c3 r3 =>
            exfalso
            have := congrArg List.length hmap
            simp [chars] at this
          | nil =>
            simp only [List.map_cons, List.map_nil,
              show chars "md" = ['m', 'd'] from rfl, List.cons.injEq, and_true] at hmap
            exact ⟨c1, c2, rfl, hmap.1, hmap.2⟩
    obtain ⟨c1, c2, htag2, hc1, hc2⟩ := hshape
    have hmknone : stripCI (chars "markdown") ((t.drop 3).dropWhile isJsWs) = none := by
      rw [hdw, htag2]
      rw [show chars "markdown" = 'm' :: 'a' :: 'r' :: 'k' :: 'd' :: 'o' :: 'w' :: 'n' :: []
        from rfl]
      simp only [List.cons_append, List.nil_append, stripCI]
      rw [if_pos (by rw [hc1]; decide), if_neg (by rw [hc2]; decide)]
    have hmd : stripCI (chars "md") ((t.drop 3).dropWhile isJsWs) =
        some (w2 ++ nl1 ++ b ++ nl2 ++ fence3 ++ w3) := by
      rw [hdw]
      apply stripCI_complete
      rw [hmap]
      decide
    obtain ⟨hex, hle⟩ := tryFenceAt_complete w2 nl1 b nl2 w3 hw2 hnl1 hnl2 hw3
    obtain ⟨b0, hb0⟩ := hex
    obtain ⟨b', hb'⟩ := fenceTailSearch_complete _ w2.length b0 hle hb0
    refine ⟨b', ?_⟩
    unfold fenceMatch
    rw [if_pos hpre]
    simp only [hmknone, hmd]
    exact hb'

/-- Claim C1: `stripOuterMarkdownFence` returns the inner capture-group
content exactly when the trimmed input, in its entirety, matches the outer
fence pattern (three backticks, optional whitespace, `markdown` or `md`
case-insensitive, optional whitespace, a line break, arbitrary possibly
empty content, a line break, three backticks with optional trailing
whitespace); for every input that does not match, the function returns the
input unchanged. -/
theorem C1_fence_unwrap (text : List Char) :
    ((∃ b, FenceSplit (jsTrim text) b) →
      ∃ b, FenceSplit (jsTrim text) b ∧ stripOuterMarkdownFence text = b) ∧
    ((∀ b, ¬FenceSplit (jsTrim text) b) → stripOuterMarkdownFence text = text) := by
  constructor
  · rintro ⟨b0, hb0⟩
    obtain ⟨b', hb'⟩ := fenceMatch_complete hb0
    exact ⟨b', fenceMatch_sound hb', by simp [stripOuterMarkdownFence, hb']⟩
  · intro hno
    cases hfm : fenceMatch (jsTrim text) with
    | some b2 => exact absurd (fenceMatch_sound hfm) (hno b2)
    | none => simp [stripOuterMarkdownFence, hfm]

theorem C1_witness :
    ∃ b, FenceSplit (jsTrim (chars "```markdown\nhi\n```")) b ∧
      stripOuterMarkdownFence (chars "```markdown\nhi\n```") = b := by
  refine (C1_fence_unwrap (chars "```markdown\nhi\n```")).1
    ⟨chars "hi", [], chars "markdown", [], ['\n'], ['\n'], [], ?_, ?_, ?_, ?_, ?_, ?_, ?_⟩
  · intro c hc
    cases hc
  · left
    decide
  · intro c hc
    cases hc
  · left
    rfl
  · left
    rfl
  · intro c hc
    cases hc
  · decide

end PiRenderMd
